import Mathlib

/-!
Verification development for the TGA image codec of MySoftRenderer
(src/tgaimage.cpp, include/tga/tgaimage.h).

The embedding below translates the codec into Lean:

* bytes are `Nat` values (the C++ code stores `std::uint8_t`; every byte the
  code manufactures is already < 256, so no masking is needed);
* the pixel buffer `std::vector<std::uint8_t>` is a `List Nat`;
* file streams are `List Nat` byte lists: a `read` that would pass the end of
  the list is the failing `!in.good()` branch;
* the decoder additionally records every buffer index it assigns to
  (`RleResult.writes`), because `data[currentbyte++] = ...` in the C++ source
  performs no bounds check, and we must be able to observe whether an
  out-of-range index is ever targeted;
* loops that are not structurally recursive carry an explicit fuel argument
  chosen at each call site to be an upper bound on the iteration count, so
  every definition is executable and kernel-reducible.
-/

namespace TGA

/-- Pixel color, mirror of `struct TGAColor`: four channel bytes in B,G,R,A
order plus a bytes-per-pixel tag. Field defaults mirror the C++ member
initializers `bgra[4] = {0,0,0,0}` and `bytespp = 4`. -/
structure TGAColor where
  bgra : List Nat := [0, 0, 0, 0]
  bytespp : Nat := 4
deriving DecidableEq

/-- Image state, mirror of `struct TGAImage`: dimensions, bytes per pixel and
the flat pixel buffer, with the C++ member defaults. -/
structure TGAImage where
  w : Nat := 0
  h : Nat := 0
  bpp : Nat := 0
  data : List Nat := []
deriving DecidableEq

/-- Overwrite consecutive entries of `buf` starting at index `i` with the
bytes of the third argument; models `memcpy(buf.data()+i, src, len)`. -/
def overwriteFrom (buf : List Nat) (i : Nat) : List Nat → List Nat
  | [] => buf
  | v :: rest => overwriteFrom (buf.set i v) (i + 1) rest

/-- Mirror of `TGAImage::get`: out-of-range coordinates or an empty buffer
return the default-constructed color `{}` (all channels 0, tag 4); otherwise
the first `bpp` channel bytes are copied from the buffer and the tag is the
image's `bpp`. -/
def TGAImage.get (img : TGAImage) (x y : Int) : TGAColor :=
  if img.data.length = 0 ∨ x < 0 ∨ y < 0 ∨ x ≥ (img.w : Int) ∨ y ≥ (img.h : Int) then {}
  else
    { bgra := (List.range 4).map fun i =>
        if i < img.bpp then img.data.getD ((x + y * img.w).toNat * img.bpp + i) 0 else 0,
      bytespp := img.bpp }

/-- Mirror of `TGAImage::set`: no-op for out-of-range coordinates or an empty
buffer, otherwise `memcpy` of the first `bpp` bytes of the color into the
cell. -/
def TGAImage.set (img : TGAImage) (x y : Int) (c : TGAColor) : TGAImage :=
  if img.data.length = 0 ∨ x < 0 ∨ y < 0 ∨ x ≥ (img.w : Int) ∨ y ≥ (img.h : Int) then img
  else { img with
         data := overwriteFrom img.data ((x + y * img.w).toNat * img.bpp)
                   (c.bgra.take img.bpp) }

/-- Mirror of the filling constructor `TGAImage::TGAImage(w, h, bpp, c)`:
allocate `w*h*bpp` zero bytes, then `set` every pixel to `c`, iterating rows
outside and columns inside as the C++ loops do. -/
def TGAImage.make (w h bpp : Nat) (c : TGAColor) : TGAImage :=
  (List.range h).foldl
    (fun img j => (List.range w).foldl (fun img2 i => img2.set i j c) img)
    { w := w, h := h, bpp := bpp, data := List.replicate (w * h * bpp) 0 }

/-- Exchange the entries at indices `a` and `b`; models `std::swap(l[a], l[b])`
(both values are read before either is stored). -/
def swapIdx (l : List Nat) (a b : Nat) : List Nat :=
  (l.set a (l.getD b 0)).set b (l.getD a 0)

/-- Perform a sequence of index swaps left to right. -/
def applySwaps (l : List Nat) (ps : List (Nat × Nat)) : List Nat :=
  ps.foldl (fun acc p => swapIdx acc p.1 p.2) l

/-- Byte index of channel `b` of the cell in column `c`, row `r`:
`(c + r*w)*bpp + b`, exactly the index expression of the C++ flip loops. -/
def cellIdx (w bpp c r b : Nat) : Nat := (c + r * w) * bpp + b

/-- Iteration space of `TGAImage::flip_horizontally`: for `i < w/2`, `j < h`,
`b < bpp`, swap channel `b` of cells `(i, j)` and `(w-1-i, j)`. -/
def hSwapPairs (w h bpp : Nat) : List (Nat × Nat) :=
  (List.range (w / 2)).flatMap fun i =>
    (List.range h).flatMap fun j =>
      (List.range bpp).map fun b =>
        (cellIdx w bpp i j b, cellIdx w bpp (w - 1 - i) j b)

/-- Iteration space of `TGAImage::flip_vertically`: for `i < w`, `j < h/2`,
`b < bpp`, swap channel `b` of cells `(i, j)` and `(i, h-1-j)`. -/
def vSwapPairs (w h bpp : Nat) : List (Nat × Nat) :=
  (List.range w).flatMap fun i =>
    (List.range (h / 2)).flatMap fun j =>
      (List.range bpp).map fun b =>
        (cellIdx w bpp i j b, cellIdx w bpp i (h - 1 - j) b)

/-- Mirror of `TGAImage::flip_horizontally`. -/
def TGAImage.flip_horizontally (img : TGAImage) : TGAImage :=
  { img with data := applySwaps img.data (hSwapPairs img.w img.h img.bpp) }

/-- Mirror of `TGAImage::flip_vertically`. -/
def TGAImage.flip_vertically (img : TGAImage) : TGAImage :=
  { img with data := applySwaps img.data (vSwapPairs img.w img.h img.bpp) }

/-- Mirror of the `succ_eq` inner loop of `TGAImage::unload_rle_data`: do the
pixels at byte offsets `curbyte` and `curbyte + bpp` agree on all `bpp`
bytes? -/
def succEqB (data : List Nat) (bpp curbyte : Nat) : Bool :=
  (List.range bpp).all fun t => data.getD (curbyte + t) 0 == data.getD (curbyte + t + bpp) 0

/-- Mirror of the run-scanning `while` loop of `TGAImage::unload_rle_data`.
State: `curbyte` (byte offset of the last pixel of the candidate run),
`rl` (`run_length`) and `raw`. The fuel is an iteration bound; every call
below passes fuel `128 ≥ 128 - rl + 1`, and the loop guard `rl < 128` makes
the fuel-exhausted branch unreachable. Returns the final
`(run_length, raw)`. -/
def runLoopF (data : List Nat) (bpp npixels curpix : Nat) :
    Nat → Nat → Nat → Bool → Nat × Bool
  | 0, _, rl, raw => (rl, raw)
  | fuel + 1, curbyte, rl, raw =>
    if curpix + rl < npixels ∧ rl < 128 then
      let se := succEqB data bpp curbyte
      let raw2 := if rl = 1 then !se else raw
      if raw2 && se then (rl - 1, raw2)
      else if !raw2 && !se then (rl, raw2)
      else runLoopF data bpp npixels curpix fuel (curbyte + bpp) (rl + 1) raw2
    else (rl, raw)

/-- Scan one run starting at pixel `curpix`: entry state of the C++ loop is
`curbyte = curpix*bpp`, `run_length = 1`, `raw = true`. -/
def scanRun (data : List Nat) (bpp npixels curpix : Nat) : Nat × Bool :=
  runLoopF data bpp npixels curpix 128 (curpix * bpp) 1 true

/-- One emitted RLE packet: its kind, its run length, and its payload bytes
(`run_length*bpp` bytes for a raw packet, `bpp` bytes for a repeated one). -/
structure RleChunk where
  raw : Bool
  rl : Nat
  payload : List Nat
deriving DecidableEq

/-- Mirror of the outer `while (curpix < npixels)` loop of
`TGAImage::unload_rle_data`, producing the emitted packets in order. Each
iteration consumes `run_length ≥ 1` pixels, so fuel `npixels` (passed at the
call site) makes the fuel-exhausted branch unreachable. -/
def unloadChunksF (data : List Nat) (bpp npixels : Nat) : Nat → Nat → List RleChunk
  | 0, _ => []
  | fuel + 1, curpix =>
    if curpix < npixels then
      let s := scanRun data bpp npixels curpix
      let payload := (data.drop (curpix * bpp)).take (if s.2 then s.1 * bpp else bpp)
      ⟨s.2, s.1, payload⟩ :: unloadChunksF data bpp npixels fuel (curpix + s.1)
    else []

/-- Packets emitted by `unload_rle_data` for an image. -/
def unloadChunks (img : TGAImage) : List RleChunk :=
  unloadChunksF img.data img.bpp (img.w * img.h) (img.w * img.h) 0

/-- Bytes a packet contributes to the output stream: the header byte
`raw ? run_length-1 : run_length+127` followed by the payload. -/
def serializeChunk (c : RleChunk) : List Nat :=
  (if c.raw then c.rl - 1 else c.rl + 127) :: c.payload

/-- Mirror of `TGAImage::unload_rle_data`: the byte stream written to the
output file after the header. -/
def TGAImage.unload_rle_data (img : TGAImage) : List Nat :=
  ((unloadChunks img).map serializeChunk).flatten

/-- Total number of pixels covered by a list of packets. -/
def sumRl (cs : List RleChunk) : Nat := (cs.map RleChunk.rl).sum

/-- Well-formedness of an emitted packet, as guaranteed by the encoder: a raw
packet covers 1..128 pixels and carries all of their bytes; a repeated packet
covers 2..128 pixels and carries one pixel's bytes. -/
def chunkWF (bpp : Nat) (c : RleChunk) : Prop :=
  (c.raw = true → 1 ≤ c.rl ∧ c.rl ≤ 128 ∧ c.payload.length = c.rl * bpp) ∧
  (c.raw = false → 2 ≤ c.rl ∧ c.rl ≤ 128 ∧ c.payload.length = bpp)

/-- Pixel bytes a packet stands for: the payload itself for a raw packet, the
payload repeated `rl` times for a repeated packet. -/
def expandChunk (c : RleChunk) : List Nat :=
  if c.raw then c.payload else (List.replicate c.rl c.payload).flatten

/-- Byte stream of a packet list. -/
def streamOfChunks (cs : List RleChunk) : List Nat :=
  (cs.map serializeChunk).flatten

/-- Decoder failure modes of `TGAImage::load_rle_data`: the stream ended
before enough pixels were decoded (any failed `in.get`/`in.read`), or a
packet pushed the pixel count strictly above `width*height` (the
"Too many pixels read" branch). -/
inductive RleErr where
  | truncated
  | overrun
deriving DecidableEq

/-- Result of the RLE decoder: outcome, final buffer, the list of buffer
indices assigned to (in order, including any out-of-range ones the C++ code
would write through without a bounds check), pixels decoded (`currentpixel`)
and bytes written (`currentbyte`). -/
structure RleResult where
  err : Option RleErr
  data : List Nat
  writes : List Nat
  count : Nat
  byte : Nat
deriving DecidableEq

/-- Write the bytes of one pixel at consecutive indices starting at
`curbyte`, recording each target index; models the
`for (t...) data[currentbyte++] = colorbuffer.bgra[t]` loop. `List.set`
ignores an out-of-range index, but the index is still recorded in the
write trace. -/
def writeBytes : List Nat → List Nat → Nat → List Nat → List Nat × List Nat × Nat
  | data, ws, curbyte, [] => (data, ws, curbyte)
  | data, ws, curbyte, v :: rest =>
    writeBytes (data.set curbyte v) (ws ++ [curbyte]) (curbyte + 1) rest

/-- Mirror of the raw-packet `for` loop of `TGAImage::load_rle_data`: read
`n` pixels from the stream, write each, count it, and fail with `overrun`
as soon as `currentpixel > pixelcount`. Returns the result and the unread
remainder of the stream. -/
def rawPacketLoop (bpp pixelcount : Nat) :
    Nat → List Nat → List Nat → List Nat → Nat → Nat → RleResult × List Nat
  | 0, s, data, ws, curbyte, curpix => (⟨none, data, ws, curpix, curbyte⟩, s)
  | n + 1, s, data, ws, curbyte, curpix =>
    if bpp ≤ s.length then
      let wres := writeBytes data ws curbyte (s.take bpp)
      if pixelcount < curpix + 1 then
        (⟨some .overrun, wres.1, wres.2.1, curpix + 1, wres.2.2⟩, s.drop bpp)
      else rawPacketLoop bpp pixelcount n (s.drop bpp) wres.1 wres.2.1 wres.2.2 (curpix + 1)
    else (⟨some .truncated, data, ws, curpix, curbyte⟩, s)

/-- Mirror of the repeated-packet `for` loop of `TGAImage::load_rle_data`:
write the one pixel `pix` a total of `n` times, counting and checking for
overrun after each copy. -/
def repPacketLoop (bpp pixelcount : Nat) (pix : List Nat) :
    Nat → List Nat → List Nat → Nat → Nat → RleResult
  | 0, data, ws, curbyte, curpix => ⟨none, data, ws, curpix, curbyte⟩
  | n + 1, data, ws, curbyte, curpix =>
    let wres := writeBytes data ws curbyte pix
    if pixelcount < curpix + 1 then ⟨some .overrun, wres.1, wres.2.1, curpix + 1, wres.2.2⟩
    else repPacketLoop bpp pixelcount pix n wres.1 wres.2.1 wres.2.2 (curpix + 1)

/-- Mirror of the `do { ... } while (currentpixel < pixelcount)` loop of
`TGAImage::load_rle_data`. Each iteration reads one packet header byte plus
payload, so the stream shrinks by at least one byte per iteration and fuel
`s.length + 1` (passed at the call site) makes the fuel-exhausted branch
unreachable; its value is the same `truncated` outcome an empty stream
produces. -/
def loadRleF (bpp pixelcount : Nat) :
    Nat → List Nat → List Nat → List Nat → Nat → Nat → RleResult
  | 0, _, data, ws, curbyte, curpix => ⟨some .truncated, data, ws, curpix, curbyte⟩
  | fuel + 1, s, data, ws, curbyte, curpix =>
    match s with
    | [] => ⟨some .truncated, data, ws, curpix, curbyte⟩
    | ch :: s2 =>
      if ch < 128 then
        let res := rawPacketLoop bpp pixelcount (ch + 1) s2 data ws curbyte curpix
        if res.1.err.isSome then res.1
        else if res.1.count < pixelcount then
          loadRleF bpp pixelcount fuel res.2 res.1.data res.1.writes res.1.byte res.1.count
        else res.1
      else
        if bpp ≤ s2.length then
          let res := repPacketLoop bpp pixelcount (s2.take bpp) (ch - 127) data ws curbyte curpix
          if res.err.isSome then res
          else if res.count < pixelcount then
            loadRleF bpp pixelcount fuel (s2.drop bpp) res.data res.writes res.byte res.count
          else res
        else ⟨some .truncated, data, ws, curpix, curbyte⟩

/-- Mirror of `TGAImage::load_rle_data` run against a byte stream `s`,
starting from buffer `data0` (the zero-filled buffer allocated by
`read_tga_file`). -/
def load_rle_data (bpp pixelcount : Nat) (s : List Nat) (data0 : List Nat) : RleResult :=
  loadRleF bpp pixelcount (s.length + 1) s data0 [] 0 0

/-- The 18-byte TGA 2.0 footer written by `write_tga_file`:
"TRUEVISION-XFILE." and a terminating 0. -/
def tgaFooter : List Nat :=
  [84, 82, 85, 69, 86, 73, 83, 73, 79, 78, 45, 88, 70, 73, 76, 69, 46, 0]

/-- The 18 header bytes `write_tga_file` emits, in the packed on-disk field
order of `struct TGAHeader`; the 16-bit width and height are little-endian,
and truncation to the field widths is made explicit with `% 256`. -/
def headerBytes (img : TGAImage) (vflip rle : Bool) : List Nat :=
  [0, 0,
   if img.bpp = 1 then (if rle then 11 else 3) else (if rle then 10 else 2),
   0, 0, 0, 0, 0,
   0, 0, 0, 0,
   img.w % 256, img.w / 256 % 256,
   img.h % 256, img.h / 256 % 256,
   img.bpp * 8 % 256,
   if vflip then 0 else 32]

/-- Mirror of `TGAImage::write_tga_file`: the full byte content of the
produced file (header, pixel data raw or RLE, two 4-byte zero reference
blocks, footer). The raw branch writes exactly `w*h*bpp` bytes of the
buffer. -/
def TGAImage.write_tga_file (img : TGAImage) (vflip rle : Bool) : List Nat :=
  headerBytes img vflip rle
    ++ (if rle then img.unload_rle_data else img.data.take (img.w * img.h * img.bpp))
    ++ [0, 0, 0, 0] ++ [0, 0, 0, 0] ++ tgaFooter

/-- Mirror of `TGAImage::read_tga_file` on a byte stream: reads the 18
header bytes (failing if the stream is shorter), validates dimensions and
bytes-per-pixel, reads the pixel data raw or RLE according to the data type
code, and normalizes the orientation from the image descriptor bits (the
tests `b17 / 32 % 2` and `b17 / 16 % 2` are the descriptor bit tests
`& 0x20` and `& 0x10`). Returns the resulting image state, or `none` where
the C++ function returns `false`. -/
def read_tga_file (s : List Nat) : Option TGAImage :=
  match s with
  | _b0 :: _b1 :: b2 :: _b3 :: _b4 :: _b5 :: _b6 :: _b7 :: _b8 :: _b9 :: _b10 :: _b11 ::
      b12 :: b13 :: b14 :: b15 :: b16 :: b17 :: rest =>
    let w := b12 + 256 * b13
    let h := b14 + 256 * b15
    let bpp := b16 / 8
    if w = 0 ∨ h = 0 ∨ (bpp ≠ 1 ∧ bpp ≠ 3 ∧ bpp ≠ 4) then none
    else
      let nbytes := w * h * bpp
      (if b2 = 3 ∨ b2 = 2 then
        if rest.length < nbytes then none else some (rest.take nbytes)
      else if b2 = 10 ∨ b2 = 11 then
        let r := load_rle_data bpp (w * h) rest (List.replicate nbytes 0)
        if r.err.isSome then none else some r.data
      else none).map fun d =>
        let img : TGAImage := ⟨w, h, bpp, d⟩
        let img2 := if b17 / 32 % 2 = 0 then img.flip_vertically else img
        if b17 / 16 % 2 ≠ 0 then img2.flip_horizontally else img2
  | _ => none

/-! ### Basic buffer lemmas -/

theorem length_overwriteFrom (src : List Nat) :
    ∀ (buf : List Nat) (i : Nat), (overwriteFrom buf i src).length = buf.length := by
  induction src with
  | nil => intro buf i; rfl
  | cons v rest ih => intro buf i; rw [overwriteFrom, ih]; simp

theorem getElem?_overwriteFrom (src : List Nat) :
    ∀ (buf : List Nat) (i k : Nat),
      (overwriteFrom buf i src)[k]? =
        if i ≤ k ∧ k < i + src.length ∧ k < buf.length then src[k - i]? else buf[k]? := by
  induction src with
  | nil =>
    intro buf i k
    rw [overwriteFrom]
    simp only [List.length_nil]
    rw [if_neg (by omega)]
  | cons v rest ih =>
    intro buf i k
    rw [overwriteFrom, ih, List.length_set]
    by_cases hk : k = i
    · subst hk
      rw [if_neg (by omega), List.getElem?_set, if_pos rfl]
      simp only [List.length_cons]
      by_cases hlt : k < buf.length
      · rw [if_pos hlt, if_pos ⟨le_refl _, by omega, hlt⟩, Nat.sub_self]
        simp
      · rw [if_neg hlt, if_neg (by omega), List.getElem?_eq_none (by omega)]
    · rw [List.getElem?_set_ne (by omega)]
      simp only [List.length_cons]
      by_cases hw : i + 1 ≤ k ∧ k < i + 1 + rest.length ∧ k < buf.length
      · rw [if_pos hw, if_pos (by omega)]
        have hki : k - i = (k - (i + 1)) + 1 := by omega
        rw [hki, List.getElem?_cons_succ]
      · rw [if_neg hw, if_neg (by omega)]

theorem overwriteFrom_full (buf src : List Nat) (h : src.length = buf.length) :
    overwriteFrom buf 0 src = src := by
  apply List.ext_getElem?
  intro k
  rw [getElem?_overwriteFrom]
  by_cases hk : k < buf.length
  · rw [if_pos (by omega)]; simp
  · rw [if_neg (by omega), List.getElem?_eq_none (by omega),
        List.getElem?_eq_none (by omega)]

theorem overwriteFrom_append (buf : List Nat) (i : Nat) (xs ys : List Nat) :
    overwriteFrom buf i (xs ++ ys) = overwriteFrom (overwriteFrom buf i xs) (i + xs.length) ys := by
  induction xs generalizing buf i with
  | nil => simp [overwriteFrom]
  | cons v rest ih =>
    rw [List.cons_append, overwriteFrom, overwriteFrom, ih]
    congr 1
    simp only [List.length_cons]
    omega

/-! ### Dimension and length preservation of the mutators -/

theorem set_dims (img : TGAImage) (x y : Int) (c : TGAColor) :
    (img.set x y c).w = img.w ∧ (img.set x y c).h = img.h ∧
      (img.set x y c).bpp = img.bpp ∧ (img.set x y c).data.length = img.data.length := by
  rw [TGAImage.set]
  split
  · exact ⟨rfl, rfl, rfl, rfl⟩
  · exact ⟨rfl, rfl, rfl, length_overwriteFrom _ _ _⟩

theorem length_swapIdx (l : List Nat) (a b : Nat) : (swapIdx l a b).length = l.length := by
  simp [swapIdx]

theorem length_applySwaps (ps : List (Nat × Nat)) :
    ∀ l : List Nat, (applySwaps l ps).length = l.length := by
  induction ps with
  | nil => intro l; rfl
  | cons p ps ih =>
    intro l
    rw [applySwaps, List.foldl_cons]
    have := ih (swapIdx l p.1 p.2)
    rw [applySwaps] at this
    rw [this, length_swapIdx]

theorem flip_horizontally_dims (img : TGAImage) :
    img.flip_horizontally.w = img.w ∧ img.flip_horizontally.h = img.h ∧
      img.flip_horizontally.bpp = img.bpp ∧
      img.flip_horizontally.data.length = img.data.length :=
  ⟨rfl, rfl, rfl, length_applySwaps _ _⟩

theorem flip_vertically_dims (img : TGAImage) :
    img.flip_vertically.w = img.w ∧ img.flip_vertically.h = img.h ∧
      img.flip_vertically.bpp = img.bpp ∧
      img.flip_vertically.data.length = img.data.length :=
  ⟨rfl, rfl, rfl, length_applySwaps _ _⟩

theorem length_writeBytes (pix : List Nat) :
    ∀ (data ws : List Nat) (curbyte : Nat),
      (writeBytes data ws curbyte pix).1.length = data.length := by
  induction pix with
  | nil => intro data ws curbyte; rfl
  | cons v rest ih => intro data ws curbyte; rw [writeBytes, ih]; simp

theorem length_rawPacketLoop (bpp pixelcount : Nat) (n : Nat) :
    ∀ (s data ws : List Nat) (curbyte curpix : Nat),
      (rawPacketLoop bpp pixelcount n s data ws curbyte curpix).1.data.length = data.length := by
  induction n with
  | zero => intro s data ws curbyte curpix; rfl
  | succ n ih =>
    intro s data ws curbyte curpix
    rw [rawPacketLoop]
    split
    · split
      · simp [length_writeBytes]
      · rw [ih, length_writeBytes]
    · rfl

theorem length_repPacketLoop (bpp pixelcount : Nat) (pix : List Nat) (n : Nat) :
    ∀ (data ws : List Nat) (curbyte curpix : Nat),
      (repPacketLoop bpp pixelcount pix n data ws curbyte curpix).data.length = data.length := by
  induction n with
  | zero => intro data ws curbyte curpix; rfl
  | succ n ih =>
    intro data ws curbyte curpix
    rw [repPacketLoop]
    split
    · simp [length_writeBytes]
    · rw [ih, length_writeBytes]

theorem loadRleF_zero (bpp pixelcount : Nat) (s data ws : List Nat) (curbyte curpix : Nat) :
    loadRleF bpp pixelcount 0 s data ws curbyte curpix =
      ⟨some .truncated, data, ws, curpix, curbyte⟩ := rfl

theorem loadRleF_nil (bpp pixelcount fuel : Nat) (data ws : List Nat) (curbyte curpix : Nat) :
    loadRleF bpp pixelcount (fuel + 1) [] data ws curbyte curpix =
      ⟨some .truncated, data, ws, curpix, curbyte⟩ := rfl

theorem loadRleF_cons (bpp pixelcount fuel ch : Nat) (s2 data ws : List Nat)
    (curbyte curpix : Nat) :
    loadRleF bpp pixelcount (fuel + 1) (ch :: s2) data ws curbyte curpix =
      (if ch < 128 then
        if (rawPacketLoop bpp pixelcount (ch + 1) s2 data ws curbyte curpix).1.err.isSome then
          (rawPacketLoop bpp pixelcount (ch + 1) s2 data ws curbyte curpix).1
        else if (rawPacketLoop bpp pixelcount (ch + 1) s2 data ws curbyte curpix).1.count <
            pixelcount then
          loadRleF bpp pixelcount fuel
            (rawPacketLoop bpp pixelcount (ch + 1) s2 data ws curbyte curpix).2
            (rawPacketLoop bpp pixelcount (ch + 1) s2 data ws curbyte curpix).1.data
            (rawPacketLoop bpp pixelcount (ch + 1) s2 data ws curbyte curpix).1.writes
            (rawPacketLoop bpp pixelcount (ch + 1) s2 data ws curbyte curpix).1.byte
            (rawPacketLoop bpp pixelcount (ch + 1) s2 data ws curbyte curpix).1.count
        else (rawPacketLoop bpp pixelcount (ch + 1) s2 data ws curbyte curpix).1
      else
        if bpp ≤ s2.length then
          if (repPacketLoop bpp pixelcount (s2.take bpp) (ch - 127) data ws curbyte
              curpix).err.isSome then
            repPacketLoop bpp pixelcount (s2.take bpp) (ch - 127) data ws curbyte curpix
          else if (repPacketLoop bpp pixelcount (s2.take bpp) (ch - 127) data ws curbyte
              curpix).count < pixelcount then
            loadRleF bpp pixelcount fuel (s2.drop bpp)
              (repPacketLoop bpp pixelcount (s2.take bpp) (ch - 127) data ws curbyte curpix).data
              (repPacketLoop bpp pixelcount (s2.take bpp) (ch - 127) data ws curbyte curpix).writes
              (repPacketLoop bpp pixelcount (s2.take bpp) (ch - 127) data ws curbyte curpix).byte
              (repPacketLoop bpp pixelcount (s2.take bpp) (ch - 127) data ws curbyte curpix).count
          else repPacketLoop bpp pixelcount (s2.take bpp) (ch - 127) data ws curbyte curpix
        else ⟨some .truncated, data, ws, curpix, curbyte⟩) := rfl

theorem length_loadRleF (bpp pixelcount : Nat) (fuel : Nat) :
    ∀ (s data ws : List Nat) (curbyte curpix : Nat),
      (loadRleF bpp pixelcount fuel s data ws curbyte curpix).data.length = data.length := by
  induction fuel with
  | zero => intro s data ws curbyte curpix; rfl
  | succ fuel ih =>
    intro s data ws curbyte curpix
    cases s with
    | nil => rfl
    | cons ch s2 =>
      rw [loadRleF_cons]
      split
      · split
        · exact length_rawPacketLoop ..
        · split
          · rw [ih, length_rawPacketLoop]
          · exact length_rawPacketLoop ..
      · split
        · split
          · exact length_repPacketLoop ..
          · split
            · rw [ih, length_repPacketLoop]
            · exact length_repPacketLoop ..
        · rfl

/-! ### Swap sequences: involution on pairwise-disjoint index pairs -/

theorem getElem?_swapIdx (l : List Nat) (a b k : Nat) (ha : a < l.length) (hb : b < l.length) :
    (swapIdx l a b)[k]? =
      if k = b then some (l.getD a 0)
      else if k = a then some (l.getD b 0)
      else l[k]? := by
  rw [swapIdx, List.getElem?_set, List.length_set]
  by_cases hkb : k = b
  · rw [if_pos hkb.symm, if_pos hb, if_pos hkb]
  · have hkb2 : ¬b = k := fun hh => hkb hh.symm
    rw [if_neg hkb2, List.getElem?_set, if_neg hkb]
    by_cases hka : k = a
    · rw [if_pos hka.symm, if_pos ha, if_pos hka]
    · have hka2 : ¬a = k := fun hh => hka hh.symm
      rw [if_neg hka2, if_neg hka]

theorem getD_swapIdx_ne (l : List Nat) (a b k : Nat) (ha : a < l.length) (hb : b < l.length)
    (h1 : k ≠ a) (h2 : k ≠ b) : (swapIdx l a b).getD k 0 = l.getD k 0 := by
  rw [List.getD_eq_getElem?_getD, getElem?_swapIdx l a b k ha hb, if_neg h2, if_neg h1,
    ← List.getD_eq_getElem?_getD]

theorem swapIdx_swapIdx (l : List Nat) (a b : Nat) (ha : a < l.length) (hb : b < l.length) :
    swapIdx (swapIdx l a b) a b = l := by
  have ha2 : a < (swapIdx l a b).length := by rw [length_swapIdx]; exact ha
  have hb2 : b < (swapIdx l a b).length := by rw [length_swapIdx]; exact hb
  apply List.ext_getElem?
  intro k
  rw [getElem?_swapIdx (swapIdx l a b) a b k ha2 hb2]
  by_cases hkb : k = b
  · rw [if_pos hkb, List.getD_eq_getElem?_getD, getElem?_swapIdx l a b a ha hb]
    by_cases hab : a = b
    · rw [if_pos hab, hkb, ← hab]
      simp [List.getD_eq_getElem?_getD, List.getElem?_eq_getElem ha]
    · rw [if_neg hab, if_pos rfl, hkb]
      simp [List.getD_eq_getElem?_getD, List.getElem?_eq_getElem hb]
  · rw [if_neg hkb]
    by_cases hka : k = a
    · rw [if_pos hka, List.getD_eq_getElem?_getD, getElem?_swapIdx l a b b ha hb, if_pos rfl,
        hka]
      simp [List.getD_eq_getElem?_getD, List.getElem?_eq_getElem ha]
    · rw [if_neg hka, getElem?_swapIdx l a b k ha hb, if_neg hkb, if_neg hka]

theorem swapIdx_comm (l : List Nat) (a b c d : Nat)
    (ha : a < l.length) (hb : b < l.length) (hc : c < l.length) (hd : d < l.length)
    (h1 : a ≠ c) (h2 : a ≠ d) (h3 : b ≠ c) (h4 : b ≠ d) :
    swapIdx (swapIdx l a b) c d = swapIdx (swapIdx l c d) a b := by
  have hc2 : c < (swapIdx l a b).length := by rw [length_swapIdx]; exact hc
  have hd2 : d < (swapIdx l a b).length := by rw [length_swapIdx]; exact hd
  have ha2 : a < (swapIdx l c d).length := by rw [length_swapIdx]; exact ha
  have hb2 : b < (swapIdx l c d).length := by rw [length_swapIdx]; exact hb
  apply List.ext_getElem?
  intro k
  rw [getElem?_swapIdx (swapIdx l a b) c d k hc2 hd2,
    getElem?_swapIdx (swapIdx l c d) a b k ha2 hb2,
    getD_swapIdx_ne l a b c ha hb h1.symm h3.symm,
    getD_swapIdx_ne l a b d ha hb h2.symm h4.symm,
    getD_swapIdx_ne l c d a hc hd h1 h2,
    getD_swapIdx_ne l c d b hc hd h3 h4]
  by_cases hkd : k = d
  · have hkb : ¬k = b := fun hh => h4 (hh.symm.trans hkd)
    have hka : ¬k = a := fun hh => h2 (hh.symm.trans hkd)
    rw [if_pos hkd, if_neg hkb, if_neg hka, getElem?_swapIdx l c d k hc hd, if_pos hkd]
  · rw [if_neg hkd]
    by_cases hkc : k = c
    · have hkb : ¬k = b := fun hh => h3 (hh.symm.trans hkc)
      have hka : ¬k = a := fun hh => h1 (hh.symm.trans hkc)
      rw [if_pos hkc, if_neg hkb, if_neg hka, getElem?_swapIdx l c d k hc hd,
        if_neg hkd, if_pos hkc]
    · rw [if_neg hkc, getElem?_swapIdx l a b k ha hb]
      by_cases hkb : k = b
      · rw [if_pos hkb, if_pos hkb]
      · rw [if_neg hkb, if_neg hkb]
        by_cases hka : k = a
        · rw [if_pos hka, if_pos hka]
        · rw [if_neg hka, if_neg hka, getElem?_swapIdx l c d k hc hd,
            if_neg hkd, if_neg hkc]

theorem applySwaps_cons (l : List Nat) (p : Nat × Nat) (ps : List (Nat × Nat)) :
    applySwaps l (p :: ps) = applySwaps (swapIdx l p.1 p.2) ps := rfl

theorem applySwaps_swapIdx_comm (ps : List (Nat × Nat)) :
    ∀ (l : List Nat) (a b : Nat), a < l.length → b < l.length →
      (∀ p ∈ ps, p.1 < l.length ∧ p.2 < l.length) →
      (∀ p ∈ ps, p.1 ≠ a ∧ p.1 ≠ b ∧ p.2 ≠ a ∧ p.2 ≠ b) →
      applySwaps (swapIdx l a b) ps = swapIdx (applySwaps l ps) a b := by
  induction ps with
  | nil => intro l a b _ _ _ _; rfl
  | cons p ps ih =>
    intro l a b ha hb hbound hdisj
    obtain ⟨hp1, hp2⟩ := hbound p (List.mem_cons_self p ps)
    obtain ⟨hd1, hd2, hd3, hd4⟩ := hdisj p (List.mem_cons_self p ps)
    rw [applySwaps_cons, applySwaps_cons,
      swapIdx_comm l a b p.1 p.2 ha hb hp1 hp2 hd1.symm hd3.symm hd2.symm hd4.symm,
      ih (swapIdx l p.1 p.2) a b (by rw [length_swapIdx]; exact ha)
        (by rw [length_swapIdx]; exact hb)
        (fun q hq => by rw [length_swapIdx]; exact hbound q (List.mem_cons_of_mem p hq))
        (fun q hq => hdisj q (List.mem_cons_of_mem p hq))]

theorem applySwaps_involution (ps : List (Nat × Nat)) :
    ∀ l : List Nat, ((ps.flatMap fun p => [p.1, p.2]).Nodup) →
      (∀ p ∈ ps, p.1 < l.length ∧ p.2 < l.length) →
      applySwaps (applySwaps l ps) ps = l := by
  induction ps with
  | nil => intro l _ _; rfl
  | cons p ps ih =>
    intro l hnd hbound
    obtain ⟨hp1, hp2⟩ := hbound p (List.mem_cons_self p ps)
    rw [List.flatMap_cons] at hnd
    have hp12 : p.1 ≠ p.2 := by
      have := List.Nodup.of_append_left hnd
      simp only [List.nodup_cons, List.mem_singleton] at this
      exact this.1
    have hnd2 : (ps.flatMap fun q => [q.1, q.2]).Nodup := List.Nodup.of_append_right hnd
    have hdisjlist := List.disjoint_of_nodup_append hnd
    have hdisj : ∀ q ∈ ps, q.1 ≠ p.1 ∧ q.1 ≠ p.2 ∧ q.2 ≠ p.1 ∧ q.2 ≠ p.2 := by
      intro q hq
      have hm1 : q.1 ∈ ps.flatMap fun q => [q.1, q.2] :=
        List.mem_flatMap.mpr ⟨q, hq, by simp⟩
      have hm2 : q.2 ∈ ps.flatMap fun q => [q.1, q.2] :=
        List.mem_flatMap.mpr ⟨q, hq, by simp⟩
      refine ⟨?_, ?_, ?_, ?_⟩
      · intro he; exact hdisjlist (by simp) (he ▸ hm1)
      · intro he; exact hdisjlist (by simp) (he ▸ hm1)
      · intro he; exact hdisjlist (by simp) (he ▸ hm2)
      · intro he; exact hdisjlist (by simp) (he ▸ hm2)
    have hbound2 : ∀ q ∈ ps, q.1 < l.length ∧ q.2 < l.length :=
      fun q hq => hbound q (List.mem_cons_of_mem p hq)
    rw [applySwaps_cons, applySwaps_cons,
      applySwaps_swapIdx_comm ps (applySwaps (swapIdx l p.1 p.2) ps) p.1 p.2
        (by rw [length_applySwaps, length_swapIdx]; exact hp1)
        (by rw [length_applySwaps, length_swapIdx]; exact hp2)
        (fun q hq => by rw [length_applySwaps, length_swapIdx]; exact hbound2 q hq)
        hdisj,
      ih (swapIdx l p.1 p.2) hnd2
        (fun q hq => by rw [length_swapIdx]; exact hbound2 q hq)]
    exact swapIdx_swapIdx l p.1 p.2 hp1 hp2

/-! ### The flip iteration spaces are families of disjoint transpositions -/

theorem addMul_inj {k a a2 b b2 : Nat} (hb : b < k) (hb2 : b2 < k)
    (h : a * k + b = a2 * k + b2) : a = a2 ∧ b = b2 := by
  have hk : 0 < k := by omega
  have e1 : (k * a + b) / k = a := by
    rw [Nat.mul_add_div hk, Nat.div_eq_of_lt hb, Nat.add_zero]
  have e2 : (k * a2 + b2) / k = a2 := by
    rw [Nat.mul_add_div hk, Nat.div_eq_of_lt hb2, Nat.add_zero]
  have h2 : k * a + b = k * a2 + b2 := by
    rw [Nat.mul_comm k a, Nat.mul_comm k a2]; exact h
  have ha : a = a2 := by rw [← e1, ← e2, h2]
  refine ⟨ha, ?_⟩
  subst ha
  exact Nat.add_left_cancel h2

theorem cellIdx_inj {w bpp c r b c2 r2 b2 : Nat}
    (heq : cellIdx w bpp c r b = cellIdx w bpp c2 r2 b2)
    (hc : c < w) (hb : b < bpp) (hc2 : c2 < w) (hb2 : b2 < bpp) :
    c = c2 ∧ r = r2 ∧ b = b2 := by
  simp only [cellIdx] at heq
  obtain ⟨h1, h2⟩ := addMul_inj hb hb2 heq
  have h1b : r * w + c = r2 * w + c2 := by omega
  obtain ⟨h3, h4⟩ := addMul_inj hc hc2 h1b
  exact ⟨h4, h3, h2⟩

theorem cellIdx_lt {w h bpp c r b : Nat} (hc : c < w) (hr : r < h) (hb : b < bpp) :
    cellIdx w bpp c r b < w * h * bpp := by
  simp only [cellIdx]
  have hrw : r * w + w ≤ h * w := by
    have h2 := Nat.mul_le_mul_right w (show r + 1 ≤ h from hr)
    rwa [Nat.succ_mul] at h2
  have h1 : c + r * w + 1 ≤ w * h := by
    have h3 := Nat.mul_comm h w
    omega
  have h4 := Nat.mul_le_mul_right bpp h1
  rw [Nat.succ_mul] at h4
  omega

theorem nodup_flatMap_range {α : Type} {n : Nat} {f : Nat → List α}
    (h1 : ∀ i, i < n → (f i).Nodup)
    (h2 : ∀ i j, i < n → j < n → i ≠ j → (f i).Disjoint (f j)) :
    ((List.range n).flatMap f).Nodup := by
  rw [List.nodup_flatMap]
  constructor
  · intro i hi; exact h1 i (List.mem_range.mp hi)
  · rw [List.pairwise_iff_getElem]
    intro i j hi hj hij
    simp only [List.length_range] at hi hj
    rw [List.getElem_range, List.getElem_range]
    exact h2 i j hi hj (Nat.ne_of_lt hij)

theorem mem_hSwapPairs {w h bpp : Nat} {p : Nat × Nat} :
    p ∈ hSwapPairs w h bpp ↔
      ∃ i j b, i < w / 2 ∧ j < h ∧ b < bpp ∧
        p = (cellIdx w bpp i j b, cellIdx w bpp (w - 1 - i) j b) := by
  simp only [hSwapPairs, List.mem_flatMap, List.mem_map, List.mem_range]
  constructor
  · rintro ⟨i, hi, j, hj, b, hb, heq⟩
    exact ⟨i, j, b, hi, hj, hb, heq.symm⟩
  · rintro ⟨i, j, b, hi, hj, hb, heq⟩
    exact ⟨i, hi, j, hj, b, hb, heq.symm⟩

theorem mem_vSwapPairs {w h bpp : Nat} {p : Nat × Nat} :
    p ∈ vSwapPairs w h bpp ↔
      ∃ i j b, i < w ∧ j < h / 2 ∧ b < bpp ∧
        p = (cellIdx w bpp i j b, cellIdx w bpp i (h - 1 - j) b) := by
  simp only [vSwapPairs, List.mem_flatMap, List.mem_map, List.mem_range]
  constructor
  · rintro ⟨i, hi, j, hj, b, hb, heq⟩
    exact ⟨i, j, b, hi, hj, hb, heq.symm⟩
  · rintro ⟨i, j, b, hi, hj, hb, heq⟩
    exact ⟨i, hi, j, hj, b, hb, heq.symm⟩

theorem hFlat_eq (w h bpp : Nat) :
    ((hSwapPairs w h bpp).flatMap fun p => [p.1, p.2]) =
      (List.range (w / 2)).flatMap fun i =>
        (List.range h).flatMap fun j =>
          (List.range bpp).flatMap fun b =>
            [cellIdx w bpp i j b, cellIdx w bpp (w - 1 - i) j b] := by
  simp only [hSwapPairs, List.flatMap_assoc, List.flatMap_map]

theorem vFlat_eq (w h bpp : Nat) :
    ((vSwapPairs w h bpp).flatMap fun p => [p.1, p.2]) =
      (List.range w).flatMap fun i =>
        (List.range (h / 2)).flatMap fun j =>
          (List.range bpp).flatMap fun b =>
            [cellIdx w bpp i j b, cellIdx w bpp i (h - 1 - j) b] := by
  simp only [vSwapPairs, List.flatMap_assoc, List.flatMap_map]

theorem hSwapPairs_flat_nodup (w h bpp : Nat) :
    ((hSwapPairs w h bpp).flatMap fun p => [p.1, p.2]).Nodup := by
  rw [hFlat_eq]
  apply nodup_flatMap_range
  · intro i hi
    apply nodup_flatMap_range
    · intro j hj
      apply nodup_flatMap_range
      · intro b hb
        simp only [List.nodup_cons, List.mem_singleton, List.not_mem_nil,
          not_false_iff, List.nodup_nil, and_true]
        intro heq
        obtain ⟨hcol, _, _⟩ :=
          cellIdx_inj heq (by omega) hb (by omega) hb
        omega
      · intro b b2 hb hb2 hne x hx hy
        simp only [List.mem_cons, List.mem_singleton, List.not_mem_nil, or_false] at hx hy
        rcases hx with rfl | rfl <;> rcases hy with heq | heq <;>
          · obtain ⟨_, _, hbb⟩ :=
              cellIdx_inj heq (by omega) hb (by omega) hb2
            omega
    · intro j j2 hj hj2 hne x hx hy
      simp only [List.mem_flatMap, List.mem_range, List.mem_cons, List.mem_singleton,
        List.not_mem_nil, or_false] at hx hy
      obtain ⟨b, hb, hx⟩ := hx
      obtain ⟨b2, hb2, hy⟩ := hy
      rcases hx with rfl | rfl <;> rcases hy with heq | heq <;>
        · obtain ⟨_, hjj, _⟩ :=
            cellIdx_inj heq (by omega) hb (by omega) hb2
          omega
  · intro i i2 hi hi2 hne x hx hy
    simp only [List.mem_flatMap, List.mem_range, List.mem_cons, List.mem_singleton,
      List.not_mem_nil, or_false] at hx hy
    obtain ⟨j, hj, b, hb, hx⟩ := hx
    obtain ⟨j2, hj2, b2, hb2, hy⟩ := hy
    rcases hx with rfl | rfl <;> rcases hy with heq | heq <;>
      · obtain ⟨hcol, _, _⟩ :=
          cellIdx_inj heq (by omega) hb (by omega) hb2
        omega

theorem vSwapPairs_flat_nodup (w h bpp : Nat) :
    ((vSwapPairs w h bpp).flatMap fun p => [p.1, p.2]).Nodup := by
  rw [vFlat_eq]
  apply nodup_flatMap_range
  · intro i hi
    apply nodup_flatMap_range
    · intro j hj
      apply nodup_flatMap_range
      · intro b hb
        simp only [List.nodup_cons, List.mem_singleton, List.not_mem_nil,
          not_false_iff, List.nodup_nil, and_true]
        intro heq
        obtain ⟨_, hrow, _⟩ :=
          cellIdx_inj heq hi hb hi hb
        omega
      · intro b b2 hb hb2 hne x hx hy
        simp only [List.mem_cons, List.mem_singleton, List.not_mem_nil, or_false] at hx hy
        rcases hx with rfl | rfl <;> rcases hy with heq | heq <;>
          · obtain ⟨_, _, hbb⟩ :=
              cellIdx_inj heq hi hb hi hb2
            omega
    · intro j j2 hj hj2 hne x hx hy
      simp only [List.mem_flatMap, List.mem_range, List.mem_cons, List.mem_singleton,
        List.not_mem_nil, or_false] at hx hy
      obtain ⟨b, hb, hx⟩ := hx
      obtain ⟨b2, hb2, hy⟩ := hy
      rcases hx with rfl | rfl <;> rcases hy with heq | heq <;>
        · obtain ⟨_, hrow, _⟩ :=
            cellIdx_inj heq hi hb hi hb2
          omega
  · intro i i2 hi hi2 hne x hx hy
    simp only [List.mem_flatMap, List.mem_range, List.mem_cons, List.mem_singleton,
      List.not_mem_nil, or_false] at hx hy
    obtain ⟨j, hj, b, hb, hx⟩ := hx
    obtain ⟨j2, hj2, b2, hb2, hy⟩ := hy
    rcases hx with rfl | rfl <;> rcases hy with heq | heq <;>
      · obtain ⟨hcol, _, _⟩ :=
          cellIdx_inj heq hi hb hi2 hb2
        omega

theorem hSwapPairs_bounds {w h bpp : Nat} {p : Nat × Nat} (hp : p ∈ hSwapPairs w h bpp) :
    p.1 < w * h * bpp ∧ p.2 < w * h * bpp := by
  obtain ⟨i, j, b, hi, hj, hb, rfl⟩ := mem_hSwapPairs.mp hp
  exact ⟨cellIdx_lt (by omega) hj hb, cellIdx_lt (by omega) hj hb⟩

theorem vSwapPairs_bounds {w h bpp : Nat} {p : Nat × Nat} (hp : p ∈ vSwapPairs w h bpp) :
    p.1 < w * h * bpp ∧ p.2 < w * h * bpp := by
  obtain ⟨i, j, b, hi, hj, hb, rfl⟩ := mem_vSwapPairs.mp hp
  exact ⟨cellIdx_lt hi (by omega) hb, cellIdx_lt hi (by omega) hb⟩

theorem flip_horizontally_involution (img : TGAImage)
    (hlen : img.data.length = img.w * img.h * img.bpp) :
    img.flip_horizontally.flip_horizontally = img := by
  have key : applySwaps (applySwaps img.data (hSwapPairs img.w img.h img.bpp))
      (hSwapPairs img.w img.h img.bpp) = img.data := by
    apply applySwaps_involution _ img.data (hSwapPairs_flat_nodup img.w img.h img.bpp)
    intro p hp
    rw [hlen]
    exact hSwapPairs_bounds hp
  dsimp only [TGAImage.flip_horizontally]
  rw [key]

theorem flip_vertically_involution (img : TGAImage)
    (hlen : img.data.length = img.w * img.h * img.bpp) :
    img.flip_vertically.flip_vertically = img := by
  have key : applySwaps (applySwaps img.data (vSwapPairs img.w img.h img.bpp))
      (vSwapPairs img.w img.h img.bpp) = img.data := by
    apply applySwaps_involution _ img.data (vSwapPairs_flat_nodup img.w img.h img.bpp)
    intro p hp
    rw [hlen]
    exact vSwapPairs_bounds hp
  dsimp only [TGAImage.flip_vertically]
  rw [key]

/-! ### Encoder: run scan invariants -/

theorem succEqB_iff (data : List Nat) (bpp curbyte : Nat) :
    succEqB data bpp curbyte = true ↔
      ∀ t, t < bpp → data.getD (curbyte + t) 0 = data.getD (curbyte + t + bpp) 0 := by
  simp [succEqB, List.all_eq_true, List.mem_range]

theorem runLoopF_zero (data : List Nat) (bpp npixels curpix curbyte rl : Nat) (raw : Bool) :
    runLoopF data bpp npixels curpix 0 curbyte rl raw = (rl, raw) := rfl

theorem runLoopF_succ (data : List Nat) (bpp npixels curpix fuel curbyte rl : Nat) (raw : Bool) :
    runLoopF data bpp npixels curpix (fuel + 1) curbyte rl raw =
      (if curpix + rl < npixels ∧ rl < 128 then
        if (if rl = 1 then !(succEqB data bpp curbyte) else raw) && succEqB data bpp curbyte then
          (rl - 1, if rl = 1 then !(succEqB data bpp curbyte) else raw)
        else if !(if rl = 1 then !(succEqB data bpp curbyte) else raw) &&
            !(succEqB data bpp curbyte) then
          (rl, if rl = 1 then !(succEqB data bpp curbyte) else raw)
        else
          runLoopF data bpp npixels curpix fuel (curbyte + bpp) (rl + 1)
            (if rl = 1 then !(succEqB data bpp curbyte) else raw)
      else (rl, raw)) := rfl

theorem idx_step (curpix rl bpp : Nat) (h : 1 ≤ rl) :
    (curpix + rl - 1) * bpp + bpp = (curpix + (rl + 1) - 1) * bpp := by
  have e1 : curpix + (rl + 1) - 1 = (curpix + rl - 1) + 1 := by omega
  rw [e1, Nat.succ_mul]

theorem runLoopF_spec (data : List Nat) (bpp npixels curpix : Nat) :
    ∀ (fuel curbyte rl : Nat) (raw : Bool),
      1 ≤ rl → curpix + rl ≤ npixels → rl ≤ 128 →
      curbyte = (curpix + rl - 1) * bpp →
      (rl = 1 → raw = true) →
      (raw = false → 2 ≤ rl ∧ ∀ k, k < rl → ∀ t, t < bpp →
        data.getD ((curpix + k) * bpp + t) 0 = data.getD (curpix * bpp + t) 0) →
      1 ≤ (runLoopF data bpp npixels curpix fuel curbyte rl raw).1 ∧
        (runLoopF data bpp npixels curpix fuel curbyte rl raw).1 ≤ 128 ∧
        curpix + (runLoopF data bpp npixels curpix fuel curbyte rl raw).1 ≤ npixels ∧
        ((runLoopF data bpp npixels curpix fuel curbyte rl raw).2 = false →
          2 ≤ (runLoopF data bpp npixels curpix fuel curbyte rl raw).1 ∧
          ∀ k, k < (runLoopF data bpp npixels curpix fuel curbyte rl raw).1 → ∀ t, t < bpp →
            data.getD ((curpix + k) * bpp + t) 0 = data.getD (curpix * bpp + t) 0) := by
  intro fuel
  induction fuel with
  | zero =>
    intro curbyte rl raw h1 h2 h3 _ _ hrf
    rw [runLoopF_zero]
    exact ⟨h1, h3, h2, hrf⟩
  | succ fuel ih =>
    intro curbyte rl raw h1 h2 h3 hcb hr1 hrf
    rw [runLoopF_succ]
    by_cases hg : curpix + rl < npixels ∧ rl < 128
    · rw [if_pos hg]
      by_cases hrl1 : rl = 1
      · subst hrl1
        have hraw : raw = true := hr1 rfl
        subst hraw
        rw [if_pos rfl]
        cases hse : succEqB data bpp curbyte with
        | false =>
          simp only [hse, Bool.not_false, Bool.and_false, Bool.not_true, Bool.false_and,
            if_false, Bool.false_eq_true, if_neg (by simp : ¬(false = true))]
          apply ih
          · omega
          · omega
          · omega
          · rw [hcb]
            exact idx_step curpix 1 bpp (by omega)
          · omega
          · intro hcon; cases hcon
        | true =>
          simp only [hse, Bool.not_true, Bool.false_and, Bool.not_false, Bool.true_and,
            if_false, Bool.false_eq_true, if_neg (by simp : ¬(false = true))]
          apply ih
          · omega
          · omega
          · omega
          · rw [hcb]
            exact idx_step curpix 1 bpp (by omega)
          · omega
          · intro _
            refine ⟨by omega, ?_⟩
            intro k hk t ht
            interval_cases k
            · rfl
            · have hpix := (succEqB_iff data bpp curbyte).mp hse t ht
              rw [hcb] at hpix
              have he0 : curpix + 1 - 1 = curpix := by omega
              rw [he0] at hpix
              have hidx1 : (curpix + 1) * bpp + t = curpix * bpp + t + bpp := by
                rw [Nat.succ_mul]
                omega
              rw [hidx1, ← hpix]
      · simp only [if_neg hrl1]
        cases hraw : raw with
        | false =>
          obtain ⟨hge2, hprops⟩ := hrf hraw
          cases hse : succEqB data bpp curbyte with
          | false =>
            rw [if_neg (show ¬(((false : Bool) && false) = true) from by decide),
              if_pos (show ((!(false : Bool) && !false) = true) from by decide)]
            exact ⟨h1, h3, h2, fun _ => ⟨hge2, hprops⟩⟩
          | true =>
            rw [if_neg (show ¬(((false : Bool) && true) = true) from by decide),
              if_neg (show ¬((!(false : Bool) && !true) = true) from by decide)]
            apply ih
            · omega
            · omega
            · omega
            · rw [hcb]
              exact idx_step curpix rl bpp h1
            · omega
            · intro _
              refine ⟨by omega, ?_⟩
              intro k hk t ht
              by_cases hklt : k < rl
              · exact hprops k hklt t ht
              · have hkrl : k = rl := by omega
                subst hkrl
                have hpix := (succEqB_iff data bpp curbyte).mp hse t ht
                rw [hcb] at hpix
                have hidx1 : (curpix + k) * bpp + t =
                    (curpix + k - 1) * bpp + t + bpp := by
                  conv_lhs => rw [show curpix + k = curpix + k - 1 + 1 from by omega]
                  rw [Nat.succ_mul]
                  omega
                rw [hidx1, ← hpix]
                have hidx2 : (curpix + k - 1) * bpp + t = (curpix + (k - 1)) * bpp + t := by
                  have he2 : curpix + k - 1 = curpix + (k - 1) := by omega
                  rw [he2]
                rw [hidx2]
                exact hprops (k - 1) (by omega) t ht
        | true =>
          cases hse : succEqB data bpp curbyte with
          | false =>
            rw [if_neg (show ¬(((true : Bool) && false) = true) from by decide),
              if_neg (show ¬((!(true : Bool) && !false) = true) from by decide)]
            apply ih
            · omega
            · omega
            · omega
            · rw [hcb]
              exact idx_step curpix rl bpp h1
            · omega
            · intro hcon; cases hcon
          | true =>
            rw [if_pos (show (((true : Bool) && true) = true) from by decide)]
            refine ⟨show 1 ≤ rl - 1 by omega, show rl - 1 ≤ 128 by omega,
              show curpix + (rl - 1) ≤ npixels by omega, ?_⟩
            intro hcon
            simp at hcon
    · rw [if_neg hg]
      exact ⟨h1, h3, h2, hrf⟩

theorem scanRun_spec (data : List Nat) (bpp npixels curpix : Nat) (hcur : curpix < npixels) :
    1 ≤ (scanRun data bpp npixels curpix).1 ∧
      (scanRun data bpp npixels curpix).1 ≤ 128 ∧
      curpix + (scanRun data bpp npixels curpix).1 ≤ npixels ∧
      ((scanRun data bpp npixels curpix).2 = false →
        2 ≤ (scanRun data bpp npixels curpix).1 ∧
        ∀ k, k < (scanRun data bpp npixels curpix).1 → ∀ t, t < bpp →
          data.getD ((curpix + k) * bpp + t) 0 = data.getD (curpix * bpp + t) 0) := by
  apply runLoopF_spec
  · omega
  · omega
  · omega
  · rw [show curpix + 1 - 1 = curpix from by omega]
  · intro _; rfl
  · intro hcon; cases hcon

/-! ### Encoder: chunk list specification -/

theorem slice_eq_of_getD (data : List Nat) (a b n : Nat)
    (hb1 : a + n ≤ data.length) (hb2 : b + n ≤ data.length)
    (heq : ∀ t, t < n → data.getD (a + t) 0 = data.getD (b + t) 0) :
    (data.drop a).take n = (data.drop b).take n := by
  apply List.ext_getElem?
  intro k
  rw [List.getElem?_take, List.getElem?_take]
  by_cases hk : k < n
  · rw [if_pos hk, if_pos hk, List.getElem?_drop, List.getElem?_drop,
      List.getElem?_eq_getElem (show a + k < data.length by omega),
      List.getElem?_eq_getElem (show b + k < data.length by omega)]
    have hq := heq k hk
    rw [List.getD_eq_getElem?_getD, List.getD_eq_getElem?_getD,
      List.getElem?_eq_getElem (show a + k < data.length by omega),
      List.getElem?_eq_getElem (show b + k < data.length by omega)] at hq
    simp only [Option.getD_some] at hq
    exact congrArg some hq
  · rw [if_neg hk, if_neg hk]

theorem const_slice (data : List Nat) (bpp curpix : Nat) :
    ∀ (n m : Nat), (curpix + m + n) * bpp ≤ data.length →
      (∀ k, k < m + n → ∀ t, t < bpp →
        data.getD ((curpix + k) * bpp + t) 0 = data.getD (curpix * bpp + t) 0) →
      (data.drop ((curpix + m) * bpp)).take (n * bpp) =
        (List.replicate n ((data.drop (curpix * bpp)).take bpp)).flatten := by
  intro n
  induction n with
  | zero => intro m hb hc; simp
  | succ n ih =>
    intro m hb hc
    rw [show (n + 1) * bpp = bpp + n * bpp from by rw [Nat.succ_mul]; omega,
      List.take_add, List.replicate_succ, List.flatten_cons]
    have hmono : ∀ q r : Nat, q ≤ r → q * bpp ≤ r * bpp :=
      fun q r hq => Nat.mul_le_mul_right bpp hq
    congr 1
    · apply slice_eq_of_getD
      · have := hmono (curpix + m + 1) (curpix + m + (n + 1)) (by omega)
        rw [Nat.succ_mul] at this
        omega
      · have := hmono (curpix + 1) (curpix + m + (n + 1)) (by omega)
        rw [Nat.succ_mul] at this
        omega
      · intro t ht
        exact hc m (by omega) t ht
    · rw [List.drop_drop,
        show (curpix + m) * bpp + bpp = (curpix + (m + 1)) * bpp from by
          rw [show curpix + (m + 1) = (curpix + m) + 1 from by omega, Nat.succ_mul]]
      have hb2 : (curpix + (m + 1) + n) * bpp ≤ data.length := by
        rw [show curpix + (m + 1) + n = curpix + m + (n + 1) from by omega]
        exact hb
      exact ih (m + 1) hb2 (fun k hk t ht => hc k (by omega) t ht)

theorem unloadChunksF_zero (data : List Nat) (bpp npixels curpix : Nat) :
    unloadChunksF data bpp npixels 0 curpix = [] := rfl

theorem unloadChunksF_succ (data : List Nat) (bpp npixels fuel curpix : Nat) :
    unloadChunksF data bpp npixels (fuel + 1) curpix =
      (if curpix < npixels then
        (⟨(scanRun data bpp npixels curpix).2, (scanRun data bpp npixels curpix).1,
          (data.drop (curpix * bpp)).take
            (if (scanRun data bpp npixels curpix).2 then
              (scanRun data bpp npixels curpix).1 * bpp else bpp)⟩ : RleChunk) ::
          unloadChunksF data bpp npixels fuel (curpix + (scanRun data bpp npixels curpix).1)
      else []) := rfl

theorem unloadChunksF_spec (data : List Nat) (bpp npixels : Nat)
    (hlen : data.length = npixels * bpp) :
    ∀ (fuel curpix : Nat), curpix ≤ npixels → npixels - curpix ≤ fuel →
      (∀ c ∈ unloadChunksF data bpp npixels fuel curpix, chunkWF bpp c) ∧
      sumRl (unloadChunksF data bpp npixels fuel curpix) = npixels - curpix ∧
      ((unloadChunksF data bpp npixels fuel curpix).map expandChunk).flatten =
        data.drop (curpix * bpp) := by
  intro fuel
  induction fuel with
  | zero =>
    intro curpix hle hf
    have hc : curpix = npixels := by omega
    subst hc
    rw [unloadChunksF_zero]
    refine ⟨by simp, by simp [sumRl], ?_⟩
    simp only [List.map_nil, List.flatten_nil]
    symm
    apply List.drop_eq_nil_of_le
    omega
  | succ fuel ih =>
    intro curpix hle hf
    rw [unloadChunksF_succ]
    by_cases hcur : curpix < npixels
    · rw [if_pos hcur]
      obtain ⟨hs1, hs2, hs3, hs4⟩ := scanRun_spec data bpp npixels curpix hcur
      obtain ⟨ihw, ihs, ihe⟩ :=
        ih (curpix + (scanRun data bpp npixels curpix).1) hs3 (by omega)
      have hrest : (npixels - (curpix + (scanRun data bpp npixels curpix).1)) * bpp =
          npixels * bpp - (curpix + (scanRun data bpp npixels curpix).1) * bpp :=
        Nat.sub_mul ..
      have hmono : ∀ q r : Nat, q ≤ r → q * bpp ≤ r * bpp :=
        fun q r hq => Nat.mul_le_mul_right bpp hq
      have hdroplen : (data.drop (curpix * bpp)).length =
          npixels * bpp - curpix * bpp := by
        rw [List.length_drop, hlen]
      have hpay : ∀ L : Nat, L + curpix * bpp ≤ npixels * bpp →
          ((data.drop (curpix * bpp)).take L).length = L := by
        intro L hL
        rw [List.length_take, hdroplen]
        omega
      refine ⟨?_, ?_, ?_⟩
      · intro c hc
        rcases List.mem_cons.mp hc with hch | hcm
        · subst hch
          constructor
          · intro hraw
            have hraw2 : (scanRun data bpp npixels curpix).2 = true := hraw
            refine ⟨hs1, hs2, ?_⟩
            rw [hraw2, if_pos (show (true : Bool) = true from rfl)]
            apply hpay
            have := hmono (curpix + (scanRun data bpp npixels curpix).1) npixels hs3
            rw [Nat.add_mul] at this
            omega
          · intro hraw
            have hraw2 : (scanRun data bpp npixels curpix).2 = false := hraw
            obtain ⟨hge2, _⟩ := hs4 hraw2
            refine ⟨hge2, hs2, ?_⟩
            rw [hraw2, if_neg (show ¬((false : Bool) = true) from by decide)]
            apply hpay
            have := hmono (curpix + 1) npixels (by omega)
            rw [Nat.add_mul] at this
            omega
        · exact ihw c hcm
      · simp only [sumRl, List.map_cons, List.sum_cons]
        rw [show (List.map RleChunk.rl
            (unloadChunksF data bpp npixels fuel
              (curpix + (scanRun data bpp npixels curpix).1))).sum =
          sumRl (unloadChunksF data bpp npixels fuel
            (curpix + (scanRun data bpp npixels curpix).1)) from rfl, ihs]
        omega
      · simp only [List.map_cons, List.flatten_cons, ihe]
        have hexp : expandChunk
            (⟨(scanRun data bpp npixels curpix).2, (scanRun data bpp npixels curpix).1,
              (data.drop (curpix * bpp)).take
                (if (scanRun data bpp npixels curpix).2 then
                  (scanRun data bpp npixels curpix).1 * bpp else bpp)⟩ : RleChunk) =
            (data.drop (curpix * bpp)).take ((scanRun data bpp npixels curpix).1 * bpp) := by
          cases hsc : (scanRun data bpp npixels curpix).2 with
          | true => simp [expandChunk, hsc]
          | false =>
            simp only [expandChunk, hsc, if_neg (by simp : ¬((false : Bool) = true))]
            obtain ⟨hge2, hconst⟩ := hs4 hsc
            have hb0 : (curpix + 0 + (scanRun data bpp npixels curpix).1) * bpp ≤
                data.length := by
              rw [hlen, show curpix + 0 + (scanRun data bpp npixels curpix).1
                  = curpix + (scanRun data bpp npixels curpix).1 from by omega]
              exact hmono _ _ hs3
            have hcs := const_slice data bpp curpix (scanRun data bpp npixels curpix).1 0 hb0
              (fun k hk t ht => hconst k (by omega) t ht)
            rw [show (curpix + 0) * bpp = curpix * bpp from by rw [Nat.add_zero]] at hcs
            exact hcs.symm
        rw [hexp, show (curpix + (scanRun data bpp npixels curpix).1) * bpp
            = curpix * bpp + (scanRun data bpp npixels curpix).1 * bpp from Nat.add_mul ..,
          ← List.drop_drop, List.take_append_drop]
    · rw [if_neg hcur]
      have hc : curpix = npixels := by omega
      subst hc
      refine ⟨by simp, by simp [sumRl], ?_⟩
      simp only [List.map_nil, List.flatten_nil]
      symm
      apply List.drop_eq_nil_of_le
      omega

/-! ### Decoder: packet loop characterization -/

theorem length_flatten_replicate {α : Type} (n : Nat) (l : List α) :
    (List.replicate n l).flatten.length = n * l.length := by
  induction n with
  | zero => simp
  | succ n ih =>
    rw [List.replicate_succ, List.flatten_cons, List.length_append, ih, Nat.succ_mul]
    omega

theorem sumRl_nil : sumRl [] = 0 := rfl

theorem sumRl_cons (c : RleChunk) (cs : List RleChunk) :
    sumRl (c :: cs) = c.rl + sumRl cs := by
  simp [sumRl]

theorem streamOfChunks_nil : streamOfChunks [] = [] := rfl

theorem streamOfChunks_cons (c : RleChunk) (cs : List RleChunk) :
    streamOfChunks (c :: cs) = serializeChunk c ++ streamOfChunks cs := by
  simp [streamOfChunks]

theorem chunk_rl_pos {bpp : Nat} {c : RleChunk} (hwf : chunkWF bpp c) : 1 ≤ c.rl := by
  obtain ⟨h1, h2⟩ := hwf
  cases hcr : c.raw with
  | true => exact (h1 hcr).1
  | false => have := (h2 hcr).1; omega

theorem chunks_nil_of_sum_zero {bpp : Nat} {cs : List RleChunk}
    (hwf : ∀ c ∈ cs, chunkWF bpp c) (hs : sumRl cs = 0) : cs = [] := by
  cases cs with
  | nil => rfl
  | cons c cs =>
    have h1 := chunk_rl_pos (hwf c (List.mem_cons_self c cs))
    rw [sumRl_cons] at hs
    omega

theorem length_expandChunk {bpp : Nat} {c : RleChunk} (hwf : chunkWF bpp c) :
    (expandChunk c).length = c.rl * bpp := by
  obtain ⟨h1, h2⟩ := hwf
  cases hcr : c.raw with
  | true =>
    rw [expandChunk, if_pos hcr]
    exact (h1 hcr).2.2
  | false =>
    rw [expandChunk, if_neg (by rw [hcr]; simp), length_flatten_replicate, (h2 hcr).2.2]

theorem writeBytes_fst (pix : List Nat) :
    ∀ (data ws : List Nat) (curbyte : Nat),
      (writeBytes data ws curbyte pix).1 = overwriteFrom data curbyte pix := by
  induction pix with
  | nil => intro data ws curbyte; rfl
  | cons v rest ih => intro data ws curbyte; rw [writeBytes, overwriteFrom, ih]

theorem writeBytes_byte (pix : List Nat) :
    ∀ (data ws : List Nat) (curbyte : Nat),
      (writeBytes data ws curbyte pix).2.2 = curbyte + pix.length := by
  induction pix with
  | nil => intro data ws curbyte; simp [writeBytes]
  | cons v rest ih =>
    intro data ws curbyte
    rw [writeBytes, ih, List.length_cons]
    omega

theorem rawPacketLoop_ok (bpp pixelcount : Nat) :
    ∀ (n : Nat) (payload rest data ws : List Nat) (curbyte curpix : Nat),
      payload.length = n * bpp → curpix + n ≤ pixelcount →
      ∃ ws2,
        rawPacketLoop bpp pixelcount n (payload ++ rest) data ws curbyte curpix =
          (⟨none, overwriteFrom data curbyte payload, ws2, curpix + n, curbyte + n * bpp⟩,
            rest) := by
  intro n
  induction n with
  | zero =>
    intro payload rest data ws curbyte curpix hp hcnt
    have hnil : payload = [] := List.eq_nil_of_length_eq_zero (by omega)
    subst hnil
    exact ⟨ws, by simp [rawPacketLoop, overwriteFrom]⟩
  | succ n ih =>
    intro payload rest data ws curbyte curpix hp hcnt
    have hbl : bpp ≤ payload.length := by
      rw [hp, Nat.succ_mul]; omega
    have htl : (payload.take bpp).length = bpp := by
      rw [List.length_take]; omega
    simp only [rawPacketLoop]
    rw [if_pos (by rw [List.length_append]; omega),
      List.take_append_of_le_length hbl, List.drop_append_of_le_length hbl,
      if_neg (show ¬(pixelcount < curpix + 1) from by omega),
      writeBytes_fst, writeBytes_byte, htl]
    obtain ⟨ws2, hws2⟩ := ih (payload.drop bpp) rest
      (overwriteFrom data curbyte (payload.take bpp))
      (writeBytes data ws curbyte (payload.take bpp)).2.1
      (curbyte + bpp) (curpix + 1)
      (by rw [List.length_drop, hp, Nat.succ_mul]; omega) (by omega)
    have hov : overwriteFrom data curbyte payload =
        overwriteFrom (overwriteFrom data curbyte (payload.take bpp)) (curbyte + bpp)
          (payload.drop bpp) := by
      conv_lhs => rw [← List.take_append_drop bpp payload]
      rw [overwriteFrom_append, htl]
    rw [hov, show curpix + (n + 1) = curpix + 1 + n from by omega,
      show curbyte + (n + 1) * bpp = curbyte + bpp + n * bpp from by
        rw [Nat.succ_mul]; omega]
    exact ⟨ws2, hws2⟩

theorem repPacketLoop_ok (bpp pixelcount : Nat) (pix : List Nat) (hpix : pix.length = bpp) :
    ∀ (n : Nat) (data ws : List Nat) (curbyte curpix : Nat),
      curpix + n ≤ pixelcount →
      ∃ ws2,
        repPacketLoop bpp pixelcount pix n data ws curbyte curpix =
          ⟨none, overwriteFrom data curbyte (List.replicate n pix).flatten, ws2,
            curpix + n, curbyte + n * bpp⟩ := by
  intro n
  induction n with
  | zero =>
    intro data ws curbyte curpix hcnt
    exact ⟨ws, by simp [repPacketLoop, overwriteFrom]⟩
  | succ n ih =>
    intro data ws curbyte curpix hcnt
    simp only [repPacketLoop]
    rw [if_neg (show ¬(pixelcount < curpix + 1) from by omega),
      writeBytes_fst, writeBytes_byte, hpix]
    obtain ⟨ws2, hws2⟩ := ih (overwriteFrom data curbyte pix)
      (writeBytes data ws curbyte pix).2.1 (curbyte + bpp) (curpix + 1) (by omega)
    have hov : overwriteFrom data curbyte (List.replicate (n + 1) pix).flatten =
        overwriteFrom (overwriteFrom data curbyte pix) (curbyte + bpp)
          (List.replicate n pix).flatten := by
      rw [List.replicate_succ, List.flatten_cons, overwriteFrom_append, hpix]
    rw [hov, show curpix + (n + 1) = curpix + 1 + n from by omega,
      show curbyte + (n + 1) * bpp = curbyte + bpp + n * bpp from by
        rw [Nat.succ_mul]; omega]
    exact ⟨ws2, hws2⟩

theorem serializeChunk_eq (c : RleChunk) :
    serializeChunk c = (if c.raw then c.rl - 1 else c.rl + 127) :: c.payload := rfl

theorem loadRleF_chunks (bpp pixelcount : Nat) :
    ∀ (chunks : List RleChunk) (fuel : Nat) (rest data ws : List Nat) (curpix : Nat),
      (∀ c ∈ chunks, chunkWF bpp c) →
      sumRl chunks = pixelcount - curpix →
      curpix < pixelcount →
      (streamOfChunks chunks).length < fuel →
      ∃ ws2,
        loadRleF bpp pixelcount fuel (streamOfChunks chunks ++ rest) data ws
            (curpix * bpp) curpix =
          ⟨none, overwriteFrom data (curpix * bpp) ((chunks.map expandChunk).flatten), ws2,
            pixelcount, pixelcount * bpp⟩ := by
  intro chunks
  induction chunks with
  | nil =>
    intro fuel rest data ws curpix hwf hsum hlt hfuel
    rw [sumRl_nil] at hsum
    omega
  | cons c cs ih =>
    intro fuel rest data ws curpix hwf hsum hlt hfuel
    have hwfc := hwf c (List.mem_cons_self c cs)
    have hrlpos := chunk_rl_pos hwfc
    have hsumc : c.rl + sumRl cs = pixelcount - curpix := by
      rw [← sumRl_cons]; exact hsum
    have hsumtail : ∀ cc ∈ cs, chunkWF bpp cc :=
      fun cc hcc => hwf cc (List.mem_cons_of_mem c hcc)
    cases fuel with
    | zero => exact absurd hfuel (by omega)
    | succ fuel =>
      rw [streamOfChunks_cons, serializeChunk_eq] at hfuel ⊢
      rw [List.cons_append, List.cons_append, List.append_assoc, loadRleF_cons]
      obtain ⟨hwf1, hwf2⟩ := hwfc
      have hfuel2 : (streamOfChunks cs).length < fuel := by
        simp only [List.length_cons, List.length_append] at hfuel
        omega
      cases hcr : c.raw with
      | true =>
        obtain ⟨h1, h128, hplen⟩ := hwf1 hcr
        rw [if_pos (show (true : Bool) = true from rfl),
          if_pos (show c.rl - 1 < 128 from by omega),
          show c.rl - 1 + 1 = c.rl from by omega]
        obtain ⟨ws2, hws2⟩ := rawPacketLoop_ok bpp pixelcount c.rl c.payload
          (streamOfChunks cs ++ rest) data ws (curpix * bpp) curpix hplen (by omega)
        rw [hws2]
        dsimp only [Option.isSome]
        rw [if_neg (show ¬((false : Bool) = true) from by decide)]
        have hexpc : expandChunk c = c.payload := by
          rw [expandChunk, if_pos hcr]
        by_cases hrem : curpix + c.rl < pixelcount
        · rw [if_pos hrem,
            show curpix * bpp + c.rl * bpp = (curpix + c.rl) * bpp from
              (Nat.add_mul curpix c.rl bpp).symm]
          obtain ⟨ws3, hws3⟩ := ih fuel rest
            (overwriteFrom data (curpix * bpp) c.payload) ws2 (curpix + c.rl)
            hsumtail (by omega) hrem hfuel2
          rw [hws3, List.map_cons, List.flatten_cons, overwriteFrom_append, hexpc, hplen,
            show curpix * bpp + c.rl * bpp = (curpix + c.rl) * bpp from
              (Nat.add_mul curpix c.rl bpp).symm]
          exact ⟨ws3, rfl⟩
        · rw [if_neg hrem]
          have hcseq : cs = [] :=
            chunks_nil_of_sum_zero hsumtail (by omega)
          subst hcseq
          rw [List.map_cons, List.map_nil, List.flatten_cons, List.flatten_nil,
            List.append_nil, hexpc,
            show curpix + c.rl = pixelcount from by omega,
            show curpix * bpp + c.rl * bpp = (curpix + c.rl) * bpp from
              (Nat.add_mul curpix c.rl bpp).symm,
            show curpix + c.rl = pixelcount from by omega]
          exact ⟨ws2, rfl⟩
      | false =>
        obtain ⟨h2, h128, hplen⟩ := hwf2 hcr
        rw [if_neg (show ¬((false : Bool) = true) from by decide),
          if_neg (show ¬(c.rl + 127 < 128) from by omega),
          if_pos (show bpp ≤ (c.payload ++ (streamOfChunks cs ++ rest)).length from by
            rw [List.length_append]; omega),
          show bpp = c.payload.length from hplen.symm,
          List.take_left, List.drop_left,
          show c.payload.length = bpp from hplen]
        rw [show c.rl + 127 - 127 = c.rl from by omega]
        obtain ⟨ws2, hws2⟩ := repPacketLoop_ok bpp pixelcount c.payload hplen c.rl
          data ws (curpix * bpp) curpix (by omega)
        rw [hws2]
        dsimp only [Option.isSome]
        rw [if_neg (show ¬((false : Bool) = true) from by decide)]
        have hexpc : expandChunk c =
            (List.replicate c.rl c.payload).flatten := by
          rw [expandChunk, if_neg (by rw [hcr]; simp)]
        by_cases hrem : curpix + c.rl < pixelcount
        · rw [if_pos hrem,
            show curpix * bpp + c.rl * bpp = (curpix + c.rl) * bpp from
              (Nat.add_mul curpix c.rl bpp).symm]
          obtain ⟨ws3, hws3⟩ := ih fuel rest
            (overwriteFrom data (curpix * bpp) (List.replicate c.rl c.payload).flatten)
            ws2 (curpix + c.rl) hsumtail (by omega) hrem hfuel2
          rw [hws3, List.map_cons, List.flatten_cons, overwriteFrom_append, hexpc,
            show ((List.replicate c.rl c.payload).flatten).length = c.rl * bpp from by
              rw [length_flatten_replicate, hplen],
            show curpix * bpp + c.rl * bpp = (curpix + c.rl) * bpp from
              (Nat.add_mul curpix c.rl bpp).symm]
          exact ⟨ws3, rfl⟩
        · rw [if_neg hrem]
          have hcseq : cs = [] :=
            chunks_nil_of_sum_zero hsumtail (by omega)
          subst hcseq
          rw [List.map_cons, List.map_nil, List.flatten_cons, List.flatten_nil,
            List.append_nil, hexpc,
            show curpix + c.rl = pixelcount from by omega,
            show curpix * bpp + c.rl * bpp = (curpix + c.rl) * bpp from
              (Nat.add_mul curpix c.rl bpp).symm,
            show curpix + c.rl = pixelcount from by omega]
          exact ⟨ws2, rfl⟩

theorem unloadChunks_spec (img : TGAImage)
    (hlen : img.data.length = img.w * img.h * img.bpp) :
    (∀ c ∈ unloadChunks img, chunkWF img.bpp c) ∧
      sumRl (unloadChunks img) = img.w * img.h ∧
      ((unloadChunks img).map expandChunk).flatten = img.data := by
  obtain ⟨a, b, c⟩ := unloadChunksF_spec img.data img.bpp (img.w * img.h) hlen
    (img.w * img.h) 0 (by omega) (by omega)
  have b2 : sumRl (unloadChunks img) = img.w * img.h - 0 := b
  have c2 : ((unloadChunks img).map expandChunk).flatten =
      img.data.drop (0 * img.bpp) := c
  refine ⟨a, by omega, ?_⟩
  rw [Nat.zero_mul, List.drop_zero] at c2
  exact c2

theorem unload_rle_eq_stream (img : TGAImage) :
    img.unload_rle_data = streamOfChunks (unloadChunks img) := rfl

theorem rle_decode_encode (img : TGAImage)
    (hpix : 1 ≤ img.w * img.h)
    (hlen : img.data.length = img.w * img.h * img.bpp)
    (rest data0 : List Nat) (hd0 : data0.length = img.w * img.h * img.bpp) :
    ∃ ws2, load_rle_data img.bpp (img.w * img.h) (img.unload_rle_data ++ rest) data0 =
      ⟨none, img.data, ws2, img.w * img.h, img.w * img.h * img.bpp⟩ := by
  obtain ⟨hwf, hsum, hexp⟩ := unloadChunks_spec img hlen
  rw [load_rle_data, unload_rle_eq_stream]
  obtain ⟨ws2, hws2⟩ := loadRleF_chunks img.bpp (img.w * img.h) (unloadChunks img)
    ((streamOfChunks (unloadChunks img) ++ rest).length + 1) rest data0 [] 0
    hwf (by omega) (by omega) (by rw [List.length_append]; omega)
  rw [Nat.zero_mul] at hws2
  rw [hws2, hexp, overwriteFrom_full data0 img.data (by rw [hlen, hd0])]
  exact ⟨ws2, rfl⟩

/-! ### Decoder: truncation and pixel-count accounting -/

theorem sumRl_pos_of_ne_nil {bpp : Nat} {cs : List RleChunk}
    (hwf : ∀ c ∈ cs, chunkWF bpp c) (h : cs ≠ []) : 1 ≤ sumRl cs := by
  cases cs with
  | nil => exact absurd rfl h
  | cons c cs =>
    rw [sumRl_cons]
    have := chunk_rl_pos (hwf c (List.mem_cons_self c cs))
    omega

theorem rawPacketLoop_short (bpp pixelcount : Nat) :
    ∀ (n : Nat) (s data ws : List Nat) (curbyte curpix : Nat),
      s.length < n * bpp → curpix + n ≤ pixelcount →
      (rawPacketLoop bpp pixelcount n s data ws curbyte curpix).1.err = some .truncated := by
  intro n
  induction n with
  | zero =>
    intro s data ws curbyte curpix hs hc
    exact absurd hs (by omega)
  | succ n ih =>
    intro s data ws curbyte curpix hs hc
    simp only [rawPacketLoop]
    by_cases hbl : bpp ≤ s.length
    · rw [if_pos hbl, if_neg (show ¬(pixelcount < curpix + 1) from by omega)]
      apply ih
      · rw [List.length_drop]
        have he : (n + 1) * bpp = n * bpp + bpp := by rw [Nat.succ_mul]
        omega
      · omega
    · rw [if_neg hbl]

theorem loadRleF_front_truncated (bpp pixelcount : Nat) :
    ∀ (chunks : List RleChunk) (p t : List Nat) (fuel : Nat) (data ws : List Nat)
      (curbyte curpix : Nat),
      (∀ c ∈ chunks, chunkWF bpp c) →
      sumRl chunks = pixelcount - curpix →
      curpix < pixelcount →
      t ≠ [] → p ++ t = streamOfChunks chunks →
      (loadRleF bpp pixelcount fuel p data ws curbyte curpix).err = some .truncated := by
  intro chunks
  induction chunks with
  | nil =>
    intro p t fuel data ws curbyte curpix hwf hsum hlt ht happ
    rw [sumRl_nil] at hsum
    omega
  | cons c cs ih =>
    intro p t fuel data ws curbyte curpix hwf hsum hlt ht happ
    have hwfc := hwf c (List.mem_cons_self c cs)
    have hrlpos := chunk_rl_pos hwfc
    have hsumc : c.rl + sumRl cs = pixelcount - curpix := by
      rw [← sumRl_cons]; exact hsum
    have hsumtail : ∀ cc ∈ cs, chunkWF bpp cc :=
      fun cc hcc => hwf cc (List.mem_cons_of_mem c hcc)
    cases fuel with
    | zero => rw [loadRleF_zero]
    | succ fuel =>
      cases p with
      | nil => rw [loadRleF_nil]
      | cons ch p2 =>
        rw [streamOfChunks_cons, serializeChunk_eq, List.cons_append,
          List.cons_append] at happ
        injection happ with hch happ2
        rw [loadRleF_cons]
        obtain ⟨hwf1, hwf2⟩ := hwfc
        cases hcr : c.raw with
        | true =>
          obtain ⟨h1, h128, hplen⟩ := hwf1 hcr
          rw [hch, hcr]
          rw [if_pos (show (true : Bool) = true from rfl),
            if_pos (show c.rl - 1 < 128 from by omega),
            show c.rl - 1 + 1 = c.rl from by omega]
          by_cases hp2 : c.rl * bpp ≤ p2.length
          · have htake : p2.take (c.rl * bpp) = c.payload := by
              have e1 : (p2 ++ t).take (c.rl * bpp) = p2.take (c.rl * bpp) :=
                List.take_append_of_le_length hp2
              rw [happ2, ← hplen, List.take_left] at e1
              rw [← hplen]
              exact e1.symm
            have hdrop : p2.drop (c.rl * bpp) ++ t = streamOfChunks cs := by
              have e1 : (p2 ++ t).drop (c.rl * bpp) = p2.drop (c.rl * bpp) ++ t :=
                List.drop_append_of_le_length hp2
              rw [happ2, ← hplen, List.drop_left] at e1
              rw [hplen] at e1
              exact e1.symm
            have hcsne : cs ≠ [] := by
              intro h0
              subst h0
              rw [streamOfChunks_nil] at hdrop
              exact ht (List.append_eq_nil.mp hdrop).2
            have hrem : curpix + c.rl < pixelcount := by
              have := sumRl_pos_of_ne_nil hsumtail hcsne
              omega
            conv_lhs => rw [← List.take_append_drop (c.rl * bpp) p2, htake]
            obtain ⟨ws2, hws2⟩ := rawPacketLoop_ok bpp pixelcount c.rl c.payload
              (p2.drop (c.rl * bpp)) data ws curbyte curpix hplen (by omega)
            rw [hws2]
            dsimp only [Option.isSome]
            rw [if_neg (show ¬((false : Bool) = true) from by decide), if_pos hrem]
            exact ih (p2.drop (c.rl * bpp)) t fuel _ ws2 _ (curpix + c.rl)
              hsumtail (by omega) hrem ht hdrop
          · have hshort := rawPacketLoop_short bpp pixelcount c.rl p2 data ws curbyte curpix
              (by omega) (by omega)
            rw [if_pos (show (rawPacketLoop bpp pixelcount c.rl p2 data ws curbyte
                curpix).1.err.isSome = true from by rw [hshort]; rfl)]
            exact hshort
        | false =>
          obtain ⟨h2, h128, hplen⟩ := hwf2 hcr
          rw [hch, hcr]
          rw [if_neg (show ¬((false : Bool) = true) from by decide),
            if_neg (show ¬(c.rl + 127 < 128) from by omega)]
          by_cases hbl : bpp ≤ p2.length
          · rw [if_pos hbl]
            have htake : p2.take bpp = c.payload := by
              have e1 : (p2 ++ t).take bpp = p2.take bpp :=
                List.take_append_of_le_length hbl
              rw [happ2, ← hplen, List.take_left] at e1
              rw [← hplen]
              exact e1.symm
            have hdrop : p2.drop bpp ++ t = streamOfChunks cs := by
              have e1 : (p2 ++ t).drop bpp = p2.drop bpp ++ t :=
                List.drop_append_of_le_length hbl
              rw [happ2, ← hplen, List.drop_left] at e1
              rw [hplen] at e1
              exact e1.symm
            have hcsne : cs ≠ [] := by
              intro h0
              subst h0
              rw [streamOfChunks_nil] at hdrop
              exact ht (List.append_eq_nil.mp hdrop).2
            have hrem : curpix + c.rl < pixelcount := by
              have := sumRl_pos_of_ne_nil hsumtail hcsne
              omega
            rw [htake, show c.rl + 127 - 127 = c.rl from by omega]
            obtain ⟨ws2, hws2⟩ := repPacketLoop_ok bpp pixelcount c.payload hplen c.rl
              data ws curbyte curpix (by omega)
            rw [hws2]
            dsimp only [Option.isSome]
            rw [if_neg (show ¬((false : Bool) = true) from by decide), if_pos hrem]
            exact ih (p2.drop bpp) t fuel _ ws2 _ (curpix + c.rl)
              hsumtail (by omega) hrem ht hdrop
          · rw [if_neg hbl]
/-- On success (`err = none`), the raw-packet loop never leaves the pixel
count above `pixelcount`: the post-increment overrun check bounds it. -/
theorem rawPacketLoop_none_le (bpp pixelcount : Nat) :
    ∀ (n : Nat) (s data ws : List Nat) (curbyte curpix : Nat), 1 ≤ n →
      (rawPacketLoop bpp pixelcount n s data ws curbyte curpix).1.err = none →
      (rawPacketLoop bpp pixelcount n s data ws curbyte curpix).1.count ≤ pixelcount := by
  intro n
  induction n with
  | zero => intro s data ws curbyte curpix h1 _; omega
  | succ n ih =>
    intro s data ws curbyte curpix h1 h2
    simp only [rawPacketLoop] at h2 ⊢
    by_cases hbl : bpp ≤ s.length
    · rw [if_pos hbl] at h2 ⊢
      by_cases hov : pixelcount < curpix + 1
      · rw [if_pos hov] at h2
        simp at h2
      · rw [if_neg hov] at h2 ⊢
        cases n with
        | zero => exact show curpix + 1 ≤ pixelcount by omega
        | succ m => exact ih _ _ _ _ _ (by omega) h2
    · rw [if_neg hbl] at h2
      simp at h2

/-- On success (`err = none`), the repeated-packet loop never leaves the
pixel count above `pixelcount`. -/
theorem repPacketLoop_none_le (bpp pixelcount : Nat) (pix : List Nat) :
    ∀ (n : Nat) (data ws : List Nat) (curbyte curpix : Nat), 1 ≤ n →
      (repPacketLoop bpp pixelcount pix n data ws curbyte curpix).err = none →
      (repPacketLoop bpp pixelcount pix n data ws curbyte curpix).count ≤ pixelcount := by
  intro n
  induction n with
  | zero => intro data ws curbyte curpix h1 _; omega
  | succ n ih =>
    intro data ws curbyte curpix h1 h2
    simp only [repPacketLoop] at h2 ⊢
    by_cases hov : pixelcount < curpix + 1
    · rw [if_pos hov] at h2
      simp at h2
    · rw [if_neg hov] at h2 ⊢
      cases n with
      | zero => exact show curpix + 1 ≤ pixelcount by omega
      | succ m => exact ih _ _ _ _ (by omega) h2

/-- If the decoder loop terminates without error, the cumulative pixel
count is exactly `pixelcount`: the `do`/`while` condition only lets it stop
at `≥ pixelcount`, and the overrun checks keep it `≤ pixelcount`. -/
theorem loadRleF_none_count (bpp pixelcount : Nat) :
    ∀ (fuel : Nat) (s data ws : List Nat) (curbyte curpix : Nat),
      (loadRleF bpp pixelcount fuel s data ws curbyte curpix).err = none →
      (loadRleF bpp pixelcount fuel s data ws curbyte curpix).count = pixelcount := by
  intro fuel
  induction fuel with
  | zero =>
    intro s data ws curbyte curpix h
    rw [loadRleF_zero] at h
    simp at h
  | succ fuel ih =>
    intro s data ws curbyte curpix h
    match s with
    | [] =>
      rw [loadRleF_nil] at h
      simp at h
    | ch :: s2 =>
      rw [loadRleF_cons] at h ⊢
      by_cases hch : ch < 128
      · rw [if_pos hch] at h ⊢
        by_cases hsome :
            (rawPacketLoop bpp pixelcount (ch + 1) s2 data ws curbyte curpix).1.err.isSome = true
        · rw [if_pos hsome] at h
          rw [h] at hsome
          simp at hsome
        · rw [if_neg hsome] at h ⊢
          have hnone :
              (rawPacketLoop bpp pixelcount (ch + 1) s2 data ws curbyte curpix).1.err = none :=
            Option.not_isSome_iff_eq_none.mp hsome
          have hle := rawPacketLoop_none_le bpp pixelcount (ch + 1) s2 data ws curbyte curpix
            (by omega) hnone
          by_cases hlt :
              (rawPacketLoop bpp pixelcount (ch + 1) s2 data ws curbyte curpix).1.count <
                pixelcount
          · rw [if_pos hlt] at h ⊢
            exact ih _ _ _ _ _ h
          · rw [if_neg hlt] at h ⊢
            omega
      · rw [if_neg hch] at h ⊢
        by_cases hbl : bpp ≤ s2.length
        · rw [if_pos hbl] at h ⊢
          by_cases hsome :
              (repPacketLoop bpp pixelcount (s2.take bpp) (ch - 127) data ws curbyte
                curpix).err.isSome = true
          · rw [if_pos hsome] at h
            rw [h] at hsome
            simp at hsome
          · rw [if_neg hsome] at h ⊢
            have hnone :
                (repPacketLoop bpp pixelcount (s2.take bpp) (ch - 127) data ws curbyte
                  curpix).err = none :=
              Option.not_isSome_iff_eq_none.mp hsome
            have hle := repPacketLoop_none_le bpp pixelcount (s2.take bpp) (ch - 127) data ws
              curbyte curpix (by omega) hnone
            by_cases hlt :
                (repPacketLoop bpp pixelcount (s2.take bpp) (ch - 127) data ws curbyte
                  curpix).count < pixelcount
            · rw [if_pos hlt] at h ⊢
              exact ih _ _ _ _ _ h
            · rw [if_neg hlt] at h ⊢
              omega
        · rw [if_neg hbl] at h
          simp at h
/-! ### File-level round trip -/

/-- Unfold of `read_tga_file` on a stream with at least 18 bytes. -/
theorem read_tga_file_cons (_b0 _b1 b2 _b3 _b4 _b5 _b6 _b7 _b8 _b9 _b10 _b11
    b12 b13 b14 b15 b16 b17 : Nat) (rest : List Nat) :
    read_tga_file (_b0 :: _b1 :: b2 :: _b3 :: _b4 :: _b5 :: _b6 :: _b7 :: _b8 :: _b9 ::
        _b10 :: _b11 :: b12 :: b13 :: b14 :: b15 :: b16 :: b17 :: rest) =
      (if b12 + 256 * b13 = 0 ∨ b14 + 256 * b15 = 0 ∨
          (b16 / 8 ≠ 1 ∧ b16 / 8 ≠ 3 ∧ b16 / 8 ≠ 4) then none
       else
        (if b2 = 3 ∨ b2 = 2 then
          if rest.length < (b12 + 256 * b13) * (b14 + 256 * b15) * (b16 / 8) then none
          else some (rest.take ((b12 + 256 * b13) * (b14 + 256 * b15) * (b16 / 8)))
        else if b2 = 10 ∨ b2 = 11 then
          if (load_rle_data (b16 / 8) ((b12 + 256 * b13) * (b14 + 256 * b15)) rest
              (List.replicate ((b12 + 256 * b13) * (b14 + 256 * b15) * (b16 / 8))
                0)).err.isSome then
            none
          else
            some (load_rle_data (b16 / 8) ((b12 + 256 * b13) * (b14 + 256 * b15)) rest
              (List.replicate ((b12 + 256 * b13) * (b14 + 256 * b15) * (b16 / 8)) 0)).data
        else none).map fun d =>
          if b17 / 16 % 2 ≠ 0 then
            (if b17 / 32 % 2 = 0 then
              (⟨b12 + 256 * b13, b14 + 256 * b15, b16 / 8, d⟩ : TGAImage).flip_vertically
            else ⟨b12 + 256 * b13, b14 + 256 * b15, b16 / 8, d⟩).flip_horizontally
          else
            if b17 / 32 % 2 = 0 then
              (⟨b12 + 256 * b13, b14 + 256 * b15, b16 / 8, d⟩ : TGAImage).flip_vertically
            else ⟨b12 + 256 * b13, b14 + 256 * b15, b16 / 8, d⟩) := rfl

/-- The byte stream an uncompressed write produces, in cons form. -/
theorem write_stream_raw (img : TGAImage) (vflip : Bool) :
    img.write_tga_file vflip false =
      0 :: 0 :: (if img.bpp = 1 then 3 else 2) :: 0 :: 0 :: 0 :: 0 :: 0 :: 0 :: 0 :: 0 :: 0 ::
      (img.w % 256) :: (img.w / 256 % 256) :: (img.h % 256) :: (img.h / 256 % 256) ::
      (img.bpp * 8 % 256) :: (if vflip then 0 else 32) ::
      (img.data.take (img.w * img.h * img.bpp) ++
        (0 :: 0 :: 0 :: 0 :: 0 :: 0 :: 0 :: 0 :: tgaFooter)) := by
  simp [TGAImage.write_tga_file, headerBytes, List.append_assoc]

/-- The byte stream an RLE write produces, in cons form. -/
theorem write_stream_rle (img : TGAImage) (vflip : Bool) :
    img.write_tga_file vflip true =
      0 :: 0 :: (if img.bpp = 1 then 11 else 10) :: 0 :: 0 :: 0 :: 0 :: 0 :: 0 :: 0 :: 0 :: 0 ::
      (img.w % 256) :: (img.w / 256 % 256) :: (img.h % 256) :: (img.h / 256 % 256) ::
      (img.bpp * 8 % 256) :: (if vflip then 0 else 32) ::
      (img.unload_rle_data ++ (0 :: 0 :: 0 :: 0 :: 0 :: 0 :: 0 :: 0 :: tgaFooter)) := by
  simp [TGAImage.write_tga_file, headerBytes, List.append_assoc]

/-- Writing uncompressed and reading back yields the image, vertically
flipped when `vflip = true` (the writer only changes the descriptor byte,
and the reader then flips), byte-identical when `vflip = false`. -/
theorem read_write_raw (img : TGAImage) (vflip : Bool)
    (hw : 1 ≤ img.w) (hw2 : img.w ≤ 65535) (hh : 1 ≤ img.h) (hh2 : img.h ≤ 65535)
    (hbpp : img.bpp = 1 ∨ img.bpp = 3 ∨ img.bpp = 4)
    (hlen : img.data.length = img.w * img.h * img.bpp) :
    read_tga_file (img.write_tga_file vflip false) =
      some (if vflip then img.flip_vertically else img) := by
  have hwm : img.w % 256 + 256 * (img.w / 256 % 256) = img.w := by omega
  have hhm : img.h % 256 + 256 * (img.h / 256 % 256) = img.h := by omega
  have hbm : img.bpp * 8 % 256 / 8 = img.bpp := by
    rcases hbpp with h | h | h <;> rw [h]
  have hval : ¬(img.w = 0 ∨ img.h = 0 ∨
      (img.bpp ≠ 1 ∧ img.bpp ≠ 3 ∧ img.bpp ≠ 4)) := by
    rintro (h0 | h0 | h0)
    · omega
    · omega
    · rcases hbpp with hb | hb | hb <;> omega
  have hb2 : ((if img.bpp = 1 then 3 else 2) = 3 ∨ (if img.bpp = 1 then 3 else 2) = 2) := by
    rcases hbpp with h | h | h <;> rw [h] <;> decide
  rw [write_stream_raw, read_tga_file_cons, hwm, hhm, hbm, if_neg hval, if_pos hb2]
  have htake : img.data.take (img.w * img.h * img.bpp) = img.data := by
    rw [← hlen, List.take_length]
  rw [htake]
  have hnl : ¬((img.data ++ (0 :: 0 :: 0 :: 0 :: 0 :: 0 :: 0 :: 0 :: tgaFooter)).length <
      img.w * img.h * img.bpp) := by
    rw [List.length_append, hlen]
    omega
  rw [if_neg hnl]
  have htake2 : (img.data ++ (0 :: 0 :: 0 :: 0 :: 0 :: 0 :: 0 :: 0 :: tgaFooter)).take
      (img.w * img.h * img.bpp) = img.data := by
    rw [← hlen, List.take_left]
  rw [htake2]
  cases vflip <;> rfl

/-- Writing RLE-compressed and reading back yields the image, vertically
flipped when `vflip = true`, byte-identical when `vflip = false`. -/
theorem read_write_rle (img : TGAImage) (vflip : Bool)
    (hw : 1 ≤ img.w) (hw2 : img.w ≤ 65535) (hh : 1 ≤ img.h) (hh2 : img.h ≤ 65535)
    (hbpp : img.bpp = 1 ∨ img.bpp = 3 ∨ img.bpp = 4)
    (hlen : img.data.length = img.w * img.h * img.bpp) :
    read_tga_file (img.write_tga_file vflip true) =
      some (if vflip then img.flip_vertically else img) := by
  have hwm : img.w % 256 + 256 * (img.w / 256 % 256) = img.w := by omega
  have hhm : img.h % 256 + 256 * (img.h / 256 % 256) = img.h := by omega
  have hbm : img.bpp * 8 % 256 / 8 = img.bpp := by
    rcases hbpp with h | h | h <;> rw [h]
  have hval : ¬(img.w = 0 ∨ img.h = 0 ∨
      (img.bpp ≠ 1 ∧ img.bpp ≠ 3 ∧ img.bpp ≠ 4)) := by
    rintro (h0 | h0 | h0)
    · omega
    · omega
    · rcases hbpp with hb | hb | hb <;> omega
  have hb2 : ¬((if img.bpp = 1 then 11 else 10) = 3 ∨
      (if img.bpp = 1 then 11 else 10) = 2) := by
    rcases hbpp with h | h | h <;> rw [h] <;> decide
  have hb2r : ((if img.bpp = 1 then 11 else 10) = 10 ∨
      (if img.bpp = 1 then 11 else 10) = 11) := by
    rcases hbpp with h | h | h <;> rw [h] <;> decide
  rw [write_stream_rle, read_tga_file_cons, hwm, hhm, hbm, if_neg hval, if_neg hb2,
    if_pos hb2r]
  have hpix : 1 ≤ img.w * img.h := by
    simpa using Nat.mul_le_mul hw hh
  obtain ⟨ws2, hr⟩ := rle_decode_encode img hpix hlen
    (0 :: 0 :: 0 :: 0 :: 0 :: 0 :: 0 :: 0 :: tgaFooter)
    (List.replicate (img.w * img.h * img.bpp) 0) (by rw [List.length_replicate])
  rw [hr]
  dsimp only [Option.isSome]
  rw [if_neg (show ¬((false : Bool) = true) from by decide)]
  cases vflip <;> rfl
/-! ### The 128-run packet boundary -/

/-- Byte `j` of `n` flattened copies of a pixel is byte `j % bpp` of the
pixel. -/
theorem getD_flatten_replicate_mod (p : List Nat) :
    ∀ (n j : Nat), j < n * p.length →
      ((List.replicate n p).flatten).getD j 0 = p.getD (j % p.length) 0 := by
  intro n
  induction n with
  | zero => intro j hj; omega
  | succ n ih =>
    intro j hj
    rw [List.replicate_succ, List.flatten_cons]
    by_cases hjl : j < p.length
    · rw [List.getD_append _ _ _ _ hjl, Nat.mod_eq_of_lt hjl]
    · rw [List.getD_append_right _ _ _ _ (by omega)]
      have hlt : j - p.length < n * p.length := by
        rw [Nat.succ_mul] at hj
        omega
      rw [ih (j - p.length) hlt]
      congr 1
      conv_rhs => rw [show j = j - p.length + p.length from by omega]
      rw [Nat.add_mod_right]

/-- In the constant prefix of `128` copies of `p`, every byte equals the
byte one pixel later. -/
theorem constD_getD (p q : List Nat) (bpp : Nat) (hp : p.length = bpp)
    (t : Nat) (ht : t + bpp < 128 * bpp) :
    ((List.replicate 128 p).flatten ++ q).getD t 0 =
      ((List.replicate 128 p).flatten ++ q).getD (t + bpp) 0 := by
  have hlenF : (List.replicate 128 p).flatten.length = 128 * bpp := by
    rw [length_flatten_replicate, hp]
  rw [List.getD_append _ _ _ _ (by rw [hlenF]; omega),
    List.getD_append _ _ _ _ (by rw [hlenF]; omega),
    getD_flatten_replicate_mod p 128 t (by rw [hp]; omega),
    getD_flatten_replicate_mod p 128 (t + bpp) (by rw [hp]; omega)]
  congr 1
  rw [hp]
  exact (Nat.add_mod_right t bpp).symm

theorem runLoopF_stop (data : List Nat) (bpp npixels curpix fuel curbyte rl : Nat) (raw : Bool)
    (h : ¬(curpix + rl < npixels ∧ rl < 128)) :
    runLoopF data bpp npixels curpix fuel curbyte rl raw = (rl, raw) := by
  cases fuel with
  | zero => rw [runLoopF_zero]
  | succ fuel => rw [runLoopF_succ, if_neg h]

/-- On data whose first `128` pixels are identical, the run scan keeps
extending a repeated run until the `run_length < 128` guard stops it at
exactly `128`. -/
theorem runLoopF_const (data : List Nat) (bpp : Nat)
    (H : ∀ t, t + bpp < 128 * bpp → data.getD t 0 = data.getD (t + bpp) 0) :
    ∀ (fuel rl : Nat), 2 ≤ rl → rl ≤ 128 → 128 - rl < fuel →
      runLoopF data bpp 129 0 fuel ((rl - 1) * bpp) rl false = (128, false) := by
  intro fuel
  induction fuel with
  | zero => intro rl h2 h128 hf; omega
  | succ fuel ih =>
    intro rl h2 h128 hf
    rw [runLoopF_succ]
    by_cases hg : 0 + rl < 129 ∧ rl < 128
    · rw [if_pos hg]
      have hse : succEqB data bpp ((rl - 1) * bpp) = true := by
        rw [succEqB_iff]
        intro t ht
        apply H
        have h1 : (rl + 1) * bpp ≤ 128 * bpp := Nat.mul_le_mul_right bpp (by omega)
        have h2b : (rl + 1) * bpp = (rl - 1) * bpp + bpp + bpp := by
          rw [show rl + 1 = rl - 1 + 2 from by omega, Nat.add_mul]
          omega
        omega
      rw [if_neg (show ¬(rl = 1) from by omega), hse,
        if_neg (show ¬((false && true) = true) from by decide),
        if_neg (show ¬((!false && !true) = true) from by decide),
        show (rl - 1) * bpp + bpp = (rl + 1 - 1) * bpp from by
          rw [show rl + 1 - 1 = rl - 1 + 1 from by omega, Nat.succ_mul]]
      exact ih (rl + 1) (by omega) (by omega) (by omega)
    · rw [if_neg hg]
      rw [show rl = 128 from by omega]

/-- The packets `unload_rle_data` emits for `128` identical pixels followed
by one more pixel: one repeated packet of run length `128`, then one raw
packet of run length `1`. -/
theorem c4_chunks (bpp : Nat) (p q : List Nat)
    (hp : p.length = bpp) (hq : q.length = bpp) :
    unloadChunksF ((List.replicate 128 p).flatten ++ q) bpp 129 129 0 =
      [⟨false, 128, p⟩, ⟨true, 1, q⟩] := by
  have hlenF : (List.replicate 128 p).flatten.length = 128 * bpp := by
    rw [length_flatten_replicate, hp]
  have hF : (List.replicate 128 p).flatten = p ++ (List.replicate 127 p).flatten := by
    rw [show (128 : Nat) = 127 + 1 from rfl, List.replicate_succ, List.flatten_cons]
  have hscan0 : scanRun ((List.replicate 128 p).flatten ++ q) bpp 129 0 = (128, false) := by
    rw [show scanRun ((List.replicate 128 p).flatten ++ q) bpp 129 0 =
      runLoopF ((List.replicate 128 p).flatten ++ q) bpp 129 0 128 (0 * bpp) 1 true from rfl]
    rw [Nat.zero_mul, show (128 : Nat) = 127 + 1 from rfl, runLoopF_succ,
      if_pos (show 0 + 1 < 127 + 1 + 1 ∧ 1 < 127 + 1 from by omega), if_pos rfl]
    have hse : succEqB ((List.replicate 128 p).flatten ++ q) bpp 0 = true := by
      rw [succEqB_iff]
      intro t ht
      rw [Nat.zero_add]
      exact constD_getD p q bpp hp t (by omega)
    rw [hse, if_neg (show ¬((!true && true) = true) from by decide),
      if_neg (show ¬((!(!true) && !true) = true) from by decide),
      show 0 + bpp = (2 - 1) * bpp from by omega]
    exact runLoopF_const ((List.replicate 128 p).flatten ++ q) bpp
      (fun t ht => constD_getD p q bpp hp t ht) 127 2 (by omega) (by omega) (by omega)
  have hscan128 : scanRun ((List.replicate 128 p).flatten ++ q) bpp 129 128 = (1, true) := by
    rw [show scanRun ((List.replicate 128 p).flatten ++ q) bpp 129 128 =
      runLoopF ((List.replicate 128 p).flatten ++ q) bpp 129 128 128 (128 * bpp) 1 true from
        rfl]
    exact runLoopF_stop _ _ _ _ _ _ _ _ (by omega)
  rw [show unloadChunksF ((List.replicate 128 p).flatten ++ q) bpp 129 129 0 =
    unloadChunksF ((List.replicate 128 p).flatten ++ q) bpp 129 (128 + 1) 0 from rfl,
    unloadChunksF_succ, if_pos (show (0 : Nat) < 129 from by decide), hscan0]
  dsimp only
  rw [if_neg (show ¬((false : Bool) = true) from by decide), Nat.zero_mul, List.drop_zero,
    show ((List.replicate 128 p).flatten ++ q).take bpp = p from by
      rw [hF, List.append_assoc, ← hp, List.take_left],
    show (0 : Nat) + 128 = 128 from rfl]
  rw [show unloadChunksF ((List.replicate 128 p).flatten ++ q) bpp 129 128 128 =
    unloadChunksF ((List.replicate 128 p).flatten ++ q) bpp 129 (127 + 1) 128 from rfl,
    unloadChunksF_succ, if_pos (show (128 : Nat) < 129 from by decide), hscan128]
  dsimp only
  rw [if_pos (show (true : Bool) = true from rfl), Nat.one_mul,
    show ((List.replicate 128 p).flatten ++ q).drop (128 * bpp) = q from by
      rw [← hlenF, List.drop_left],
    show q.take bpp = q from by rw [← hq, List.take_length],
    show (128 : Nat) + 1 = 129 from rfl]
  rw [show unloadChunksF ((List.replicate 128 p).flatten ++ q) bpp 129 127 129 =
    unloadChunksF ((List.replicate 128 p).flatten ++ q) bpp 129 (126 + 1) 129 from rfl,
    unloadChunksF_succ, if_neg (show ¬((129 : Nat) < 129) from by decide)]

/-- The full byte stream `unload_rle_data` emits for the 128-plus-1 buffer:
header `255` (repeated, run `128`), the run pixel, header `0` (raw, run
`1`), the odd pixel. -/
theorem c4_stream (bpp : Nat) (p q : List Nat)
    (hp : p.length = bpp) (hq : q.length = bpp) :
    TGAImage.unload_rle_data ⟨129, 1, bpp, (List.replicate 128 p).flatten ++ q⟩ =
      255 :: (p ++ 0 :: q) := by
  rw [show TGAImage.unload_rle_data ⟨129, 1, bpp, (List.replicate 128 p).flatten ++ q⟩ =
    ((unloadChunksF ((List.replicate 128 p).flatten ++ q) bpp 129 129 0).map
      serializeChunk).flatten from rfl, c4_chunks bpp p q hp hq]
  simp [serializeChunk]
/-! ### The buffer-length invariant -/

theorem inv_flip_horizontally (img : TGAImage)
    (h : img.data.length = img.w * img.h * img.bpp) :
    img.flip_horizontally.data.length =
      img.flip_horizontally.w * img.flip_horizontally.h * img.flip_horizontally.bpp := by
  obtain ⟨h1, h2, h3, h4⟩ := flip_horizontally_dims img
  rw [h1, h2, h3, h4, h]

theorem inv_flip_vertically (img : TGAImage)
    (h : img.data.length = img.w * img.h * img.bpp) :
    img.flip_vertically.data.length =
      img.flip_vertically.w * img.flip_vertically.h * img.flip_vertically.bpp := by
  obtain ⟨h1, h2, h3, h4⟩ := flip_vertically_dims img
  rw [h1, h2, h3, h4, h]

/-- The orientation-normalization step of `read_tga_file` preserves the
buffer-length invariant of the image it is fed. -/
theorem map_flip_len (o : Option (List Nat)) (w0 h0 bpp0 b17 : Nat) (img : TGAImage)
    (hlen : ∀ d, o = some d → d.length = w0 * h0 * bpp0)
    (h : (o.map fun d =>
      if b17 / 16 % 2 ≠ 0 then
        (if b17 / 32 % 2 = 0 then (⟨w0, h0, bpp0, d⟩ : TGAImage).flip_vertically
         else ⟨w0, h0, bpp0, d⟩).flip_horizontally
      else
        if b17 / 32 % 2 = 0 then (⟨w0, h0, bpp0, d⟩ : TGAImage).flip_vertically
        else ⟨w0, h0, bpp0, d⟩) = some img) :
    img.data.length = img.w * img.h * img.bpp := by
  cases o with
  | none => exact Option.noConfusion h
  | some d =>
    have hd := hlen d rfl
    have hX : (⟨w0, h0, bpp0, d⟩ : TGAImage).data.length =
        (⟨w0, h0, bpp0, d⟩ : TGAImage).w * (⟨w0, h0, bpp0, d⟩ : TGAImage).h *
          (⟨w0, h0, bpp0, d⟩ : TGAImage).bpp := hd
    have h2 : (if b17 / 16 % 2 ≠ 0 then
        (if b17 / 32 % 2 = 0 then (⟨w0, h0, bpp0, d⟩ : TGAImage).flip_vertically
         else ⟨w0, h0, bpp0, d⟩).flip_horizontally
      else
        if b17 / 32 % 2 = 0 then (⟨w0, h0, bpp0, d⟩ : TGAImage).flip_vertically
        else ⟨w0, h0, bpp0, d⟩) = img := by
      simpa using h
    rw [← h2]
    split_ifs with hc1 hc2
    · exact inv_flip_horizontally _ (inv_flip_vertically _ hX)
    · exact inv_flip_horizontally _ hX
    · exact inv_flip_vertically _ hX
    · exact hX

/-- Every image a successful `read_tga_file` returns satisfies the
buffer-length invariant. -/
theorem read_len (s : List Nat) (img : TGAImage)
    (h : read_tga_file s = some img) :
    img.data.length = img.w * img.h * img.bpp := by
  rcases s with _ | ⟨b0, s⟩
  · exact Option.noConfusion h
  rcases s with _ | ⟨b1, s⟩
  · exact Option.noConfusion h
  rcases s with _ | ⟨b2, s⟩
  · exact Option.noConfusion h
  rcases s with _ | ⟨b3, s⟩
  · exact Option.noConfusion h
  rcases s with _ | ⟨b4, s⟩
  · exact Option.noConfusion h
  rcases s with _ | ⟨b5, s⟩
  · exact Option.noConfusion h
  rcases s with _ | ⟨b6, s⟩
  · exact Option.noConfusion h
  rcases s with _ | ⟨b7, s⟩
  · exact Option.noConfusion h
  rcases s with _ | ⟨b8, s⟩
  · exact Option.noConfusion h
  rcases s with _ | ⟨b9, s⟩
  · exact Option.noConfusion h
  rcases s with _ | ⟨b10, s⟩
  · exact Option.noConfusion h
  rcases s with _ | ⟨b11, s⟩
  · exact Option.noConfusion h
  rcases s with _ | ⟨b12, s⟩
  · exact Option.noConfusion h
  rcases s with _ | ⟨b13, s⟩
  · exact Option.noConfusion h
  rcases s with _ | ⟨b14, s⟩
  · exact Option.noConfusion h
  rcases s with _ | ⟨b15, s⟩
  · exact Option.noConfusion h
  rcases s with _ | ⟨b16, s⟩
  · exact Option.noConfusion h
  rcases s with _ | ⟨b17, rest⟩
  · exact Option.noConfusion h
  rw [read_tga_file_cons] at h
  by_cases hval : (b12 + 256 * b13 = 0 ∨ b14 + 256 * b15 = 0 ∨
      (b16 / 8 ≠ 1 ∧ b16 / 8 ≠ 3 ∧ b16 / 8 ≠ 4))
  · rw [if_pos hval] at h
    exact Option.noConfusion h
  · rw [if_neg hval] at h
    refine map_flip_len _ _ _ _ _ img ?_ h
    intro d hd
    by_cases hb2a : b2 = 3 ∨ b2 = 2
    · rw [if_pos hb2a] at hd
      by_cases hsh : rest.length < (b12 + 256 * b13) * (b14 + 256 * b15) * (b16 / 8)
      · rw [if_pos hsh] at hd
        exact Option.noConfusion hd
      · rw [if_neg hsh] at hd
        rw [← Option.some.inj hd, List.length_take]
        omega
    · rw [if_neg hb2a] at hd
      by_cases hb2b : b2 = 10 ∨ b2 = 11
      · rw [if_pos hb2b] at hd
        by_cases hsome : (load_rle_data (b16 / 8) ((b12 + 256 * b13) * (b14 + 256 * b15)) rest
            (List.replicate ((b12 + 256 * b13) * (b14 + 256 * b15) * (b16 / 8))
              0)).err.isSome = true
        · rw [if_pos hsome] at hd
          exact Option.noConfusion hd
        · rw [if_neg hsome] at hd
          have hl : (load_rle_data (b16 / 8) ((b12 + 256 * b13) * (b14 + 256 * b15)) rest
              (List.replicate ((b12 + 256 * b13) * (b14 + 256 * b15) * (b16 / 8))
                0)).data.length =
              (List.replicate ((b12 + 256 * b13) * (b14 + 256 * b15) * (b16 / 8)) 0).length :=
            length_loadRleF _ _ _ _ _ _ _ _
          rw [← Option.some.inj hd, hl, List.length_replicate]
      · rw [if_neg hb2b] at hd
        exact Option.noConfusion hd

/-- Folding a dimension- and length-preserving update over a list preserves
dimensions and buffer length. -/
theorem foldl_preserve {α : Type} (f : TGAImage → α → TGAImage)
    (hf : ∀ img a, (f img a).w = img.w ∧ (f img a).h = img.h ∧ (f img a).bpp = img.bpp ∧
      (f img a).data.length = img.data.length) :
    ∀ (l : List α) (img : TGAImage),
      (l.foldl f img).w = img.w ∧ (l.foldl f img).h = img.h ∧
        (l.foldl f img).bpp = img.bpp ∧ (l.foldl f img).data.length = img.data.length := by
  intro l
  induction l with
  | nil => intro img; exact ⟨rfl, rfl, rfl, rfl⟩
  | cons a l ih =>
    intro img
    rw [List.foldl_cons]
    obtain ⟨h1, h2, h3, h4⟩ := ih (f img a)
    obtain ⟨g1, g2, g3, g4⟩ := hf img a
    exact ⟨h1.trans g1, h2.trans g2, h3.trans g3, h4.trans g4⟩

/-- The filling constructor records the requested dimensions and allocates
exactly `w*h*bpp` bytes. -/
theorem make_spec (w h bpp : Nat) (c : TGAColor) :
    (TGAImage.make w h bpp c).w = w ∧ (TGAImage.make w h bpp c).h = h ∧
      (TGAImage.make w h bpp c).bpp = bpp ∧
      (TGAImage.make w h bpp c).data.length = w * h * bpp := by
  obtain ⟨h1, h2, h3, h4⟩ := foldl_preserve
    (fun img j => (List.range w).foldl (fun img2 i => img2.set i j c) img)
    (fun img j => foldl_preserve (fun img2 i => img2.set i j c)
      (fun img2 i => set_dims img2 i j c) (List.range w) img)
    (List.range h)
    ⟨w, h, bpp, List.replicate (w * h * bpp) 0⟩
  exact ⟨h1, h2, h3, h4.trans (List.length_replicate ..)⟩
/-! ### Claim theorems -/

/-- C7: for in-range coordinates on a non-empty buffer, `set` overwrites
exactly the `bpp` bytes of cell `(x,y)` with the first `bpp` bytes of the
supplied pixel, leaving all other bytes and the dimensions unchanged; for
out-of-range coordinates or an empty buffer it leaves the state unchanged. -/
theorem claim_C7 (img : TGAImage) (x y : Int) (c : TGAColor)
    (hx : 0 ≤ x) (hy : 0 ≤ y) (hxw : x < (img.w : Int)) (hyh : y < (img.h : Int))
    (hne : img.data.length ≠ 0) (hlen : img.data.length = img.w * img.h * img.bpp)
    (hc4 : c.bgra.length = 4) (hbpp4 : img.bpp ≤ 4) :
    ((img.set x y c).w = img.w ∧ (img.set x y c).h = img.h ∧
      (img.set x y c).bpp = img.bpp ∧
      (img.set x y c).data.length = img.data.length) ∧
    (∀ t, t < img.bpp →
      (img.set x y c).data[(x + y * (img.w : Int)).toNat * img.bpp + t]? = c.bgra[t]?) ∧
    (∀ k, k < (x + y * (img.w : Int)).toNat * img.bpp ∨
        (x + y * (img.w : Int)).toNat * img.bpp + img.bpp ≤ k →
      (img.set x y c).data[k]? = img.data[k]?) ∧
    (∀ (x2 y2 : Int) (img2 : TGAImage) (c2 : TGAColor),
      img2.data.length = 0 ∨ x2 < 0 ∨ y2 < 0 ∨ x2 ≥ (img2.w : Int) ∨ y2 ≥ (img2.h : Int) →
      img2.set x2 y2 c2 = img2) := by
  have hcond : ¬(img.data.length = 0 ∨ x < 0 ∨ y < 0 ∨ x ≥ (img.w : Int) ∨
      y ≥ (img.h : Int)) := by
    rintro (h0 | h0 | h0 | h0 | h0) <;> omega
  have hcell : (x + y * (img.w : Int)).toNat < img.w * img.h := by
    have h1 : y * (img.w : Int) ≤ ((img.h : Int) - 1) * (img.w : Int) :=
      mul_le_mul_of_nonneg_right (by omega) (by omega)
    have h3 : ((img.w : Int) - 1) + ((img.h : Int) - 1) * (img.w : Int) =
        (img.w : Int) * (img.h : Int) - 1 := by ring
    have h4 : x + y * (img.w : Int) < (img.w : Int) * (img.h : Int) := by omega
    have h5 : 0 ≤ y * (img.w : Int) := mul_nonneg (by omega) (by omega)
    rw [← Nat.cast_mul] at h4
    omega
  have hsrc : (c.bgra.take img.bpp).length = img.bpp := by
    rw [List.length_take, hc4]
    omega
  have hbb : ((x + y * (img.w : Int)).toNat + 1) * img.bpp ≤ img.w * img.h * img.bpp :=
    Nat.mul_le_mul_right img.bpp (by omega)
  rw [Nat.add_mul] at hbb
  rw [TGAImage.set, if_neg hcond]
  dsimp only
  refine ⟨⟨rfl, rfl, rfl, length_overwriteFrom _ _ _⟩, ?_, ?_, ?_⟩
  · intro t ht
    rw [getElem?_overwriteFrom,
      if_pos ⟨by omega, by rw [hsrc]; omega, by omega⟩,
      show (x + y * (img.w : Int)).toNat * img.bpp + t -
        (x + y * (img.w : Int)).toNat * img.bpp = t from by omega,
      List.getElem?_take, if_pos ht]
  · intro k hk
    rw [getElem?_overwriteFrom, if_neg ?_]
    rintro ⟨c1, c2, c3⟩
    rw [hsrc] at c2
    omega
  · intro x2 y2 img2 c2 h0
    rw [TGAImage.set, if_pos h0]
/-- C1: the spec as written (byte-for-byte reproduction with `vflip=true`)
is refuted by `cex_C1`; corrected statement: an RLE write with `vflip=true`
reads back as the vertically flipped image (the writer only clears the
top-left descriptor bit and never reorders rows, so the reader flips), an
RLE write with `vflip=false` reads back byte-for-byte, and the RLE decoder
applied to the RLE encoder output reproduces the pixel buffer exactly. -/
theorem claim_C1 (img : TGAImage) (data0 : List Nat)
    (hw : 1 ≤ img.w) (hw2 : img.w ≤ 65535) (hh : 1 ≤ img.h) (hh2 : img.h ≤ 65535)
    (hbpp : img.bpp = 1 ∨ img.bpp = 3 ∨ img.bpp = 4)
    (hlen : img.data.length = img.w * img.h * img.bpp)
    (hd0 : data0.length = img.w * img.h * img.bpp) :
    read_tga_file (img.write_tga_file true true) = some img.flip_vertically ∧
    read_tga_file (img.write_tga_file false true) = some img ∧
    ∃ ws2, load_rle_data img.bpp (img.w * img.h) img.unload_rle_data data0 =
      ⟨none, img.data, ws2, img.w * img.h, img.w * img.h * img.bpp⟩ := by
  refine ⟨?_, ?_, ?_⟩
  · simpa using read_write_rle img true hw hw2 hh hh2 hbpp hlen
  · simpa using read_write_rle img false hw hw2 hh hh2 hbpp hlen
  · have hpix : 1 ≤ img.w * img.h := by simpa using Nat.mul_le_mul hw hh
    obtain ⟨ws2, hdec⟩ := rle_decode_encode img hpix hlen [] data0 hd0
    rw [List.append_nil] at hdec
    exact ⟨ws2, hdec⟩

/-- Counterexample to C1 as written: a 1-by-2 image written with
`vflip=true, rle=true` reads back vertically flipped, not byte-identical. -/
theorem cex_C1 :
    read_tga_file (TGAImage.write_tga_file ⟨1, 2, 1, [0, 1]⟩ true true) ≠
      some ⟨1, 2, 1, [0, 1]⟩ := by decide

theorem claim_C1_witness :
    ((⟨1, 1, 1, [7]⟩ : TGAImage).data.length = 1 * 1 * 1) ∧
    (read_tga_file (TGAImage.write_tga_file ⟨1, 1, 1, [7]⟩ true true) =
      some (TGAImage.flip_vertically ⟨1, 1, 1, [7]⟩) ∧
    read_tga_file (TGAImage.write_tga_file ⟨1, 1, 1, [7]⟩ false true) =
      some ⟨1, 1, 1, [7]⟩ ∧
    ∃ ws2, load_rle_data 1 (1 * 1) (TGAImage.unload_rle_data ⟨1, 1, 1, [7]⟩) [0] =
      ⟨none, [7], ws2, 1 * 1, 1 * 1 * 1⟩) :=
  ⟨by decide, claim_C1 ⟨1, 1, 1, [7]⟩ [0] (by decide) (by decide) (by decide) (by decide)
    (by decide) (by decide) (by decide)⟩

/-- C2: the spec as written (byte-for-byte reproduction with `vflip=true`)
is refuted by `cex_C2`; corrected statement: an uncompressed write with
`vflip=true` reads back as the vertically flipped image, and with
`vflip=false` byte-for-byte. -/
theorem claim_C2 (img : TGAImage)
    (hw : 1 ≤ img.w) (hw2 : img.w ≤ 65535) (hh : 1 ≤ img.h) (hh2 : img.h ≤ 65535)
    (hbpp : img.bpp = 1 ∨ img.bpp = 3 ∨ img.bpp = 4)
    (hlen : img.data.length = img.w * img.h * img.bpp) :
    read_tga_file (img.write_tga_file true false) = some img.flip_vertically ∧
    read_tga_file (img.write_tga_file false false) = some img := by
  constructor
  · simpa using read_write_raw img true hw hw2 hh hh2 hbpp hlen
  · simpa using read_write_raw img false hw hw2 hh hh2 hbpp hlen

/-- Counterexample to C2 as written: a 1-by-2 image written with
`vflip=true, rle=false` reads back vertically flipped, not byte-identical. -/
theorem cex_C2 :
    read_tga_file (TGAImage.write_tga_file ⟨1, 2, 1, [0, 1]⟩ true false) ≠
      some ⟨1, 2, 1, [0, 1]⟩ := by decide

theorem claim_C2_witness :
    ((⟨1, 1, 1, [7]⟩ : TGAImage).data.length = 1 * 1 * 1) ∧
    (read_tga_file (TGAImage.write_tga_file ⟨1, 1, 1, [7]⟩ true false) =
      some (TGAImage.flip_vertically ⟨1, 1, 1, [7]⟩) ∧
    read_tga_file (TGAImage.write_tga_file ⟨1, 1, 1, [7]⟩ false false) =
      some ⟨1, 1, 1, [7]⟩) :=
  ⟨by decide, claim_C2 ⟨1, 1, 1, [7]⟩ (by decide) (by decide) (by decide) (by decide)
    (by decide) (by decide)⟩

/-- C3: the overrun check fires on a stream that decodes too many pixels
and an exact-sum stream is accepted, but the decoder writes one pixel past
the end of the allocated buffer before the check runs: on a 1-pixel,
1-byte-per-pixel image, the corrupt stream `[129, 42]` makes it write byte
indices 0 and 1 even though the buffer has length `1*1*1 = 1`, and only then
report the overrun. -/
theorem claim_C3 :
    (load_rle_data 1 1 [129, 42] [0]).err = some RleErr.overrun ∧
    (load_rle_data 1 1 [129, 42] [0]).writes = [0, 1] ∧
    ¬(∀ i ∈ (load_rle_data 1 1 [129, 42] [0]).writes, i < 1 * 1 * 1) ∧
    (load_rle_data 1 1 [128, 7] [0]).err = none := by decide

/-- C4: a buffer of exactly 128 identical pixels followed by one distinct
pixel encodes to a repeated packet with header byte 255 and one pixel
payload, then a raw packet with header byte 0 and one pixel payload, and
decoding that exact byte sequence with 129 pixels expected reproduces the
original buffer. -/
theorem claim_C4 (bpp : Nat) (p q data0 : List Nat)
    (hp : p.length = bpp) (hq : q.length = bpp) (hne : p ≠ q)
    (hd0 : data0.length = 129 * bpp) :
    TGAImage.unload_rle_data ⟨129, 1, bpp, (List.replicate 128 p).flatten ++ q⟩ =
      255 :: (p ++ 0 :: q) ∧
    ∃ ws2, load_rle_data bpp 129 (255 :: (p ++ 0 :: q)) data0 =
      ⟨none, (List.replicate 128 p).flatten ++ q, ws2, 129, 129 * bpp⟩ := by
  have hs := c4_stream bpp p q hp hq
  refine ⟨hs, ?_⟩
  have hlenD : ((List.replicate 128 p).flatten ++ q).length = 129 * bpp := by
    rw [List.length_append, length_flatten_replicate, hp, hq]
    omega
  obtain ⟨ws2, hdec⟩ := rle_decode_encode
    ⟨129, 1, bpp, (List.replicate 128 p).flatten ++ q⟩
    (show (1 : Nat) ≤ 129 * 1 by omega)
    (show ((List.replicate 128 p).flatten ++ q).length = 129 * 1 * bpp by
      rw [hlenD])
    [] data0
    (show data0.length = 129 * 1 * bpp by omega)
  rw [hs, List.append_nil] at hdec
  exact ⟨ws2, hdec⟩

set_option maxRecDepth 8192 in
theorem claim_C4_witness :
    ([1].length = 1 ∧ [1] ≠ [2]) ∧
    (TGAImage.unload_rle_data ⟨129, 1, 1, (List.replicate 128 [1]).flatten ++ [2]⟩ =
      255 :: ([1] ++ 0 :: [2]) ∧
    ∃ ws2, load_rle_data 1 129 (255 :: ([1] ++ 0 :: [2])) (List.replicate 129 0) =
      ⟨none, (List.replicate 128 [1]).flatten ++ [2], ws2, 129, 129 * 1⟩) :=
  ⟨⟨by decide, by decide⟩, claim_C4 1 [1] [2] (List.replicate 129 0) (by decide) (by decide)
    (by decide) (by simp)⟩

/-- C5: cutting any nonempty tail off a well-formed RLE pixel stream (so
the stream ends mid-packet, mid-pixel, or before a packet header, before
the cumulative pixel count reaches the expected total) makes the decoder
fail with the truncation error, and a run of the decoder that reports no
error always ends with the cumulative pixel count exactly equal to the
expected total. -/
theorem claim_C5 (bpp pixelcount : Nat) (chunks : List RleChunk)
    (p t s data0 data1 : List Nat)
    (hwf : ∀ c ∈ chunks, chunkWF bpp c) (hsum : sumRl chunks = pixelcount)
    (hpos : 0 < pixelcount) (ht : t ≠ []) (happ : p ++ t = streamOfChunks chunks) :
    (load_rle_data bpp pixelcount p data0).err = some RleErr.truncated ∧
    ((load_rle_data bpp pixelcount s data1).err = none →
      (load_rle_data bpp pixelcount s data1).count = pixelcount) := by
  constructor
  · exact loadRleF_front_truncated bpp pixelcount chunks p t (p.length + 1) data0 [] 0 0
      hwf (by omega) hpos ht happ
  · exact fun hok => loadRleF_none_count bpp pixelcount (s.length + 1) s data1 [] 0 0 hok

theorem claim_C5_witness :
    ((∀ c ∈ [(⟨true, 4, [5, 5, 6, 7]⟩ : RleChunk)], chunkWF 1 c) ∧
      [3, 5, 5] ++ [6, 7] = streamOfChunks [(⟨true, 4, [5, 5, 6, 7]⟩ : RleChunk)]) ∧
    ((load_rle_data 1 4 [3, 5, 5] [0, 0, 0, 0]).err = some RleErr.truncated ∧
    ((load_rle_data 1 4 [3, 5, 5, 6, 7] [0, 0, 0, 0]).err = none →
      (load_rle_data 1 4 [3, 5, 5, 6, 7] [0, 0, 0, 0]).count = 4)) := by
  have hwf : ∀ c ∈ [(⟨true, 4, [5, 5, 6, 7]⟩ : RleChunk)], chunkWF 1 c := by
    intro c hc
    rw [List.mem_singleton] at hc
    subst hc
    exact ⟨fun _ => ⟨by decide, by decide, by decide⟩, fun h0 => absurd h0 (by decide)⟩
  exact ⟨⟨hwf, by decide⟩,
    claim_C5 1 4 [⟨true, 4, [5, 5, 6, 7]⟩] [3, 5, 5] [6, 7] [3, 5, 5, 6, 7]
      [0, 0, 0, 0] [0, 0, 0, 0] hwf (by decide) (by decide) (by decide) (by decide)⟩

/-- C6: the spec as written says the out-of-range pixel carries
bytes-per-pixel equal to the image bpp; `cex_C6` refutes that. Corrected
statement: for out-of-range coordinates or an empty buffer, `get` returns
the default-constructed color: all four channel bytes 0 and
bytes-per-pixel 4 regardless of the image bpp. -/
theorem claim_C6 (img : TGAImage) (x y : Int)
    (h : img.data.length = 0 ∨ x < 0 ∨ y < 0 ∨ x ≥ (img.w : Int) ∨ y ≥ (img.h : Int)) :
    img.get x y = { bgra := [0, 0, 0, 0], bytespp := 4 } := by
  rw [TGAImage.get, if_pos h]

/-- Counterexample to C6 as written: on a 1-bpp image, the out-of-range
`get (-1) 0` returns a color whose bytes-per-pixel tag is 4, not 1. -/
theorem cex_C6 :
    (TGAImage.get ⟨1, 1, 1, [5]⟩ (-1) 0).bytespp ≠ (⟨1, 1, 1, [5]⟩ : TGAImage).bpp := by
  decide

theorem claim_C6_witness :
    ((⟨1, 1, 1, [5]⟩ : TGAImage).data.length = 0 ∨ (-1 : Int) < 0 ∨ (0 : Int) < 0 ∨
      (-1 : Int) ≥ ((⟨1, 1, 1, [5]⟩ : TGAImage).w : Int) ∨
      (0 : Int) ≥ ((⟨1, 1, 1, [5]⟩ : TGAImage).h : Int)) ∧
    TGAImage.get ⟨1, 1, 1, [5]⟩ (-1) 0 = { bgra := [0, 0, 0, 0], bytespp := 4 } :=
  ⟨by decide, claim_C6 ⟨1, 1, 1, [5]⟩ (-1) 0 (by decide)⟩

theorem claim_C7_witness :
    ((⟨2, 2, 1, [1, 2, 3, 4]⟩ : TGAImage).data.length =
      (⟨2, 2, 1, [1, 2, 3, 4]⟩ : TGAImage).w * (⟨2, 2, 1, [1, 2, 3, 4]⟩ : TGAImage).h *
        (⟨2, 2, 1, [1, 2, 3, 4]⟩ : TGAImage).bpp) ∧
    (((⟨2, 2, 1, [1, 2, 3, 4]⟩ : TGAImage).set 1 0 ⟨[9, 8, 7, 6], 4⟩).w = 2 ∧
      ((⟨2, 2, 1, [1, 2, 3, 4]⟩ : TGAImage).set 1 0 ⟨[9, 8, 7, 6], 4⟩).h = 2 ∧
      ((⟨2, 2, 1, [1, 2, 3, 4]⟩ : TGAImage).set 1 0 ⟨[9, 8, 7, 6], 4⟩).bpp = 1 ∧
      ((⟨2, 2, 1, [1, 2, 3, 4]⟩ : TGAImage).set 1 0 ⟨[9, 8, 7, 6], 4⟩).data.length = 4) :=
  ⟨by decide, (claim_C7 ⟨2, 2, 1, [1, 2, 3, 4]⟩ 1 0 ⟨[9, 8, 7, 6], 4⟩ (by decide) (by decide)
    (by decide) (by decide) (by decide) (by decide) (by decide) (by decide)).1⟩

/-- C8: applying `flip_horizontally` twice restores the image exactly, and
likewise `flip_vertically`, for every image satisfying the buffer-length
invariant (including odd dimensions and the empty image). -/
theorem claim_C8 (img : TGAImage) (hlen : img.data.length = img.w * img.h * img.bpp) :
    img.flip_horizontally.flip_horizontally = img ∧
    img.flip_vertically.flip_vertically = img :=
  ⟨flip_horizontally_involution img hlen, flip_vertically_involution img hlen⟩

theorem claim_C8_witness :
    ((⟨2, 3, 1, [0, 1, 2, 3, 4, 5]⟩ : TGAImage).data.length = 2 * 3 * 1) ∧
    ((⟨2, 3, 1, [0, 1, 2, 3, 4, 5]⟩ : TGAImage).flip_horizontally.flip_horizontally =
      ⟨2, 3, 1, [0, 1, 2, 3, 4, 5]⟩ ∧
    (⟨2, 3, 1, [0, 1, 2, 3, 4, 5]⟩ : TGAImage).flip_vertically.flip_vertically =
      ⟨2, 3, 1, [0, 1, 2, 3, 4, 5]⟩) :=
  ⟨by decide, claim_C8 ⟨2, 3, 1, [0, 1, 2, 3, 4, 5]⟩ (by decide)⟩

/-- C9: the filling constructor establishes the buffer-length invariant
`length(data) = width*height*bpp`, every successful read returns an image
satisfying it, and `set`, `flip_horizontally` and `flip_vertically` never
change the dimensions or the buffer length (`get` does not modify the
image at all in this functional model). -/
theorem claim_C9 (w h bpp : Nat) (c : TGAColor) (s : List Nat) (img imgr : TGAImage)
    (x y : Int) (c2 : TGAColor) (hread : read_tga_file s = some imgr) :
    ((TGAImage.make w h bpp c).w = w ∧ (TGAImage.make w h bpp c).h = h ∧
      (TGAImage.make w h bpp c).bpp = bpp ∧
      (TGAImage.make w h bpp c).data.length =
        (TGAImage.make w h bpp c).w * (TGAImage.make w h bpp c).h *
          (TGAImage.make w h bpp c).bpp) ∧
    imgr.data.length = imgr.w * imgr.h * imgr.bpp ∧
    ((img.set x y c2).w = img.w ∧ (img.set x y c2).h = img.h ∧
      (img.set x y c2).bpp = img.bpp ∧
      (img.set x y c2).data.length = img.data.length) ∧
    (img.flip_horizontally.w = img.w ∧ img.flip_horizontally.h = img.h ∧
      img.flip_horizontally.bpp = img.bpp ∧
      img.flip_horizontally.data.length = img.data.length) ∧
    (img.flip_vertically.w = img.w ∧ img.flip_vertically.h = img.h ∧
      img.flip_vertically.bpp = img.bpp ∧
      img.flip_vertically.data.length = img.data.length) := by
  obtain ⟨m1, m2, m3, m4⟩ := make_spec w h bpp c
  refine ⟨⟨m1, m2, m3, ?_⟩, read_len s imgr hread, set_dims img x y c2,
    flip_horizontally_dims img, flip_vertically_dims img⟩
  rw [m1, m2, m3, m4]

theorem claim_C9_witness :
    (read_tga_file [0, 0, 3, 0, 0, 0, 0, 0, 0, 0, 0, 0, 1, 0, 1, 0, 8, 32, 7] =
      some ⟨1, 1, 1, [7]⟩) ∧
    (((TGAImage.make 2 2 1 ⟨[5, 5, 5, 5], 4⟩).w = 2 ∧
      (TGAImage.make 2 2 1 ⟨[5, 5, 5, 5], 4⟩).h = 2 ∧
      (TGAImage.make 2 2 1 ⟨[5, 5, 5, 5], 4⟩).bpp = 1 ∧
      (TGAImage.make 2 2 1 ⟨[5, 5, 5, 5], 4⟩).data.length =
        (TGAImage.make 2 2 1 ⟨[5, 5, 5, 5], 4⟩).w *
          (TGAImage.make 2 2 1 ⟨[5, 5, 5, 5], 4⟩).h *
          (TGAImage.make 2 2 1 ⟨[5, 5, 5, 5], 4⟩).bpp) ∧
    (⟨1, 1, 1, [7]⟩ : TGAImage).data.length =
      (⟨1, 1, 1, [7]⟩ : TGAImage).w * (⟨1, 1, 1, [7]⟩ : TGAImage).h *
        (⟨1, 1, 1, [7]⟩ : TGAImage).bpp ∧
    (((⟨2, 2, 1, [1, 2, 3, 4]⟩ : TGAImage).set 0 1 ⟨[9], 1⟩).w =
        (⟨2, 2, 1, [1, 2, 3, 4]⟩ : TGAImage).w ∧
      ((⟨2, 2, 1, [1, 2, 3, 4]⟩ : TGAImage).set 0 1 ⟨[9], 1⟩).h =
        (⟨2, 2, 1, [1, 2, 3, 4]⟩ : TGAImage).h ∧
      ((⟨2, 2, 1, [1, 2, 3, 4]⟩ : TGAImage).set 0 1 ⟨[9], 1⟩).bpp =
        (⟨2, 2, 1, [1, 2, 3, 4]⟩ : TGAImage).bpp ∧
      ((⟨2, 2, 1, [1, 2, 3, 4]⟩ : TGAImage).set 0 1 ⟨[9], 1⟩).data.length =
        (⟨2, 2, 1, [1, 2, 3, 4]⟩ : TGAImage).data.length) ∧
    ((⟨2, 2, 1, [1, 2, 3, 4]⟩ : TGAImage).flip_horizontally.w =
        (⟨2, 2, 1, [1, 2, 3, 4]⟩ : TGAImage).w ∧
      (⟨2, 2, 1, [1, 2, 3, 4]⟩ : TGAImage).flip_horizontally.h =
        (⟨2, 2, 1, [1, 2, 3, 4]⟩ : TGAImage).h ∧
      (⟨2, 2, 1, [1, 2, 3, 4]⟩ : TGAImage).flip_horizontally.bpp =
        (⟨2, 2, 1, [1, 2, 3, 4]⟩ : TGAImage).bpp ∧
      (⟨2, 2, 1, [1, 2, 3, 4]⟩ : TGAImage).flip_horizontally.data.length =
        (⟨2, 2, 1, [1, 2, 3, 4]⟩ : TGAImage).data.length) ∧
    ((⟨2, 2, 1, [1, 2, 3, 4]⟩ : TGAImage).flip_vertically.w =
        (⟨2, 2, 1, [1, 2, 3, 4]⟩ : TGAImage).w ∧
      (⟨2, 2, 1, [1, 2, 3, 4]⟩ : TGAImage).flip_vertically.h =
        (⟨2, 2, 1, [1, 2, 3, 4]⟩ : TGAImage).h ∧
      (⟨2, 2, 1, [1, 2, 3, 4]⟩ : TGAImage).flip_vertically.bpp =
        (⟨2, 2, 1, [1, 2, 3, 4]⟩ : TGAImage).bpp ∧
      (⟨2, 2, 1, [1, 2, 3, 4]⟩ : TGAImage).flip_vertically.data.length =
        (⟨2, 2, 1, [1, 2, 3, 4]⟩ : TGAImage).data.length)) :=
  ⟨by decide,
    claim_C9 2 2 1 ⟨[5, 5, 5, 5], 4⟩ [0, 0, 3, 0, 0, 0, 0, 0, 0, 0, 0, 0, 1, 0, 1, 0, 8, 32, 7]
      ⟨2, 2, 1, [1, 2, 3, 4]⟩ ⟨1, 1, 1, [7]⟩ 0 1 ⟨[9], 1⟩ (by decide)⟩

/-- C10: every packet the RLE encoder emits is well formed: a raw packet
covers between 1 and 128 pixels and its header byte `run_length - 1` lies
in `[0,127]`; a repeated packet replicates between 2 and 128 pixels and its
header byte `run_length + 127` lies in `[129,255]`, never 128 — so a run of
length 1 is always emitted raw. -/
theorem claim_C10 (img : TGAImage) (c : RleChunk)
    (hlen : img.data.length = img.w * img.h * img.bpp)
    (hc : c ∈ unloadChunks img) :
    (c.raw = true → 1 ≤ c.rl ∧ c.rl ≤ 128 ∧
      serializeChunk c = (c.rl - 1) :: c.payload ∧ c.rl - 1 ≤ 127) ∧
    (c.raw = false → 2 ≤ c.rl ∧ c.rl ≤ 128 ∧
      serializeChunk c = (c.rl + 127) :: c.payload ∧
      129 ≤ c.rl + 127 ∧ c.rl + 127 ≤ 255) := by
  obtain ⟨hr, hnr⟩ := (unloadChunks_spec img hlen).1 c hc
  constructor
  · intro hcr
    obtain ⟨h1, h2, h3⟩ := hr hcr
    refine ⟨h1, h2, ?_, by omega⟩
    rw [serializeChunk_eq, hcr, if_pos rfl]
  · intro hcr
    obtain ⟨h1, h2, h3⟩ := hnr hcr
    refine ⟨h1, h2, ?_, by omega, by omega⟩
    rw [serializeChunk_eq, hcr, if_neg (show ¬((false : Bool) = true) from by decide)]

theorem claim_C10_witness :
    ((⟨2, 2, 1, [5, 5, 6, 7]⟩ : TGAImage).data.length = 2 * 2 * 1 ∧
      (⟨false, 2, [5]⟩ : RleChunk) ∈ unloadChunks ⟨2, 2, 1, [5, 5, 6, 7]⟩) ∧
    (((⟨false, 2, [5]⟩ : RleChunk).raw = true → 1 ≤ (⟨false, 2, [5]⟩ : RleChunk).rl ∧
      (⟨false, 2, [5]⟩ : RleChunk).rl ≤ 128 ∧
      serializeChunk ⟨false, 2, [5]⟩ =
        ((⟨false, 2, [5]⟩ : RleChunk).rl - 1) :: (⟨false, 2, [5]⟩ : RleChunk).payload ∧
      (⟨false, 2, [5]⟩ : RleChunk).rl - 1 ≤ 127) ∧
    ((⟨false, 2, [5]⟩ : RleChunk).raw = false → 2 ≤ (⟨false, 2, [5]⟩ : RleChunk).rl ∧
      (⟨false, 2, [5]⟩ : RleChunk).rl ≤ 128 ∧
      serializeChunk ⟨false, 2, [5]⟩ =
        ((⟨false, 2, [5]⟩ : RleChunk).rl + 127) :: (⟨false, 2, [5]⟩ : RleChunk).payload ∧
      129 ≤ (⟨false, 2, [5]⟩ : RleChunk).rl + 127 ∧
      (⟨false, 2, [5]⟩ : RleChunk).rl + 127 ≤ 255)) :=
  ⟨⟨by decide, by decide⟩,
    claim_C10 ⟨2, 2, 1, [5, 5, 6, 7]⟩ ⟨false, 2, [5]⟩ (by decide) (by decide)⟩

end TGA
